import Mathlib

/-!
Verification of the core algorithmic components of the Vulcany GPU abstraction
layer: the task-graph builder (`src/taskgraph/task_graph.rs`) and the
generation-stamped GPU resource pool (`src/backend/gpu_resources.rs`).

The Rust code is shallowly embedded: `Vec<T>` becomes `List`, in-place
mutation becomes explicit state passing, u64 arithmetic is `Nat` with
explicit masking/mod where the machine width matters, and panics become
`Except` errors carrying the failure kind.
-/

namespace Vulcany

namespace TaskGraph

/-- Access mode of a declared resource use (enum `ResourceAcess`, spelling as
in the source). -/
inductive ResourceAcess where
  | Write
  | Read
  | ReadAndWrite
deriving DecidableEq, Repr

/-- One declared resource access of a pass (struct `PassResource`). The ID
newtypes (`BufferID` etc.) wrap a `u64` compared by equality; they are
modelled as `Nat`. -/
structure PassResource where
  buffer : Option Nat
  image : Option Nat
  image_view : Option Nat
  sampler : Option Nat
  acess : ResourceAcess
deriving DecidableEq, Repr

/-- A pass/task: the fields other than `resources` (name, pass type,
recording callback) do not influence the graph algorithms. -/
structure Pass where
  resources : List PassResource
deriving DecidableEq, Repr

/-- The `same_resource` test inlined in `check_dependencies`: the two
accesses name a common resource when one of the four ID fields is `Some`
on the left and equal on the right. -/
def same_resource (a b : PassResource) : Bool :=
  (a.buffer.isSome && a.buffer == b.buffer) ||
  (a.image.isSome && a.image == b.image) ||
  (a.image_view.isSome && a.image_view == b.image_view) ||
  (a.sampler.isSome && a.sampler == b.sampler)

/-- The match on the pair of access modes inside `check_dependencies`:
the arms `(W,W) | (RW,_) | (_,RW) | (W,R) | (R,W)` return `true`,
everything else (i.e. `(R,R)`) falls through to `false`. -/
def hazard_acess : ResourceAcess → ResourceAcess → Bool
  | .Write, .Write => true
  | .ReadAndWrite, _ => true
  | _, .ReadAndWrite => true
  | .Write, .Read => true
  | .Read, .Write => true
  | _, _ => false

/-- `TaskGraph::check_dependencies(a, b)`: does `b` depend on `a`?  The Rust
double loop returns `true` at the first hazardous pair, which is exactly
short-circuiting `any`. -/
def check_dependencies (a b : Pass) : Bool :=
  a.resources.any fun res_a =>
    b.resources.any fun res_b =>
      same_resource res_a res_b && hazard_acess res_a.acess res_b.acess

/-- Placeholder pass used for (never reached) out-of-range list reads. -/
def default_pass : Pass := ⟨[]⟩

/-- The edge-building loop of `TaskGraph::create_adjacency_list` before the
reduction call: `edges[i]` collects, in increasing order, every `j < i`
with `check_dependencies(passes[j], passes[i])`. -/
def hazardScan (passes : List Pass) : List (List Nat) :=
  (List.range passes.length).map fun i =>
    (List.range i).filter fun j =>
      check_dependencies (passes.getD j default_pass) (passes.getD i default_pass)

/-- One step of the stack-based DFS loop in `transitive_reduction`, with
explicit fuel.  The Rust stack pushes the neighbours of `node` in order and
pops from the end, which is `reverse ++` on a head-is-top list.  Every call
site supplies fuel that bounds the number of loop iterations (one initial
stack element plus at most one expansion per vertex), so the fuel never
runs out. -/
def dfsFuel (adj : List (List Nat)) (v : Nat) : Nat → List Bool → List Nat → Bool
  | 0, _, _ => false
  | _ + 1, _, [] => false
  | fuel + 1, visited, node :: rest =>
    if node = v then true
    else if visited.getD node false then dfsFuel adj v fuel visited rest
    else dfsFuel adj v fuel (visited.set node true) ((adj.getD node []).reverse ++ rest)

/-- The `is_reachable` block of `transitive_reduction`: DFS from `u` looking
for `v`, with fresh `visited` array.  Total loop iterations are bounded by
one plus the total number of adjacency entries (each in-range vertex is
expanded at most once, out-of-range vertices push nothing), which the fuel
covers. -/
def is_reachable (adj : List (List Nat)) (u v : Nat) : Bool :=
  dfsFuel adj v ((adj.map List.length).sum + 1) (List.replicate adj.length false) [u]

/-- `adj[u].retain(|x| x != v)`. -/
def removeEdge (adj : List (List Nat)) (u v : Nat) : List (List Nat) :=
  adj.set u ((adj.getD u []).filter fun x => x ≠ v)

/-- `adj[u].push(v)`. -/
def pushEdge (adj : List (List Nat)) (u v : Nat) : List (List Nat) :=
  adj.set u ((adj.getD u []) ++ [v])

/-- Body of the inner loop of `transitive_reduction`: drop the edge `u → v`,
re-add it only when `v` is no longer reachable from `u`. -/
def reduceStep (adj : List (List Nat)) (u v : Nat) : List (List Nat) :=
  let adj1 := removeEdge adj u v
  if is_reachable adj1 u v then adj1 else pushEdge adj1 u v

/-- `TaskGraph::transitive_reduction`: for each vertex `u` in order, walk a
snapshot (`clone`) of its current neighbour row and apply `reduceStep`. -/
def transitive_reduction (adj : List (List Nat)) : List (List Nat) :=
  (List.range adj.length).foldl
    (fun acc u => (acc.getD u []).foldl (fun acc2 v => reduceStep acc2 u v) acc) adj

/-- `TaskGraph::create_adjacency_list`: pairwise hazard scan followed by the
in-place transitive reduction. -/
def create_adjacency_list (passes : List Pass) : List (List Nat) :=
  transitive_reduction (hazardScan passes)

/-- The first loops of `toplogical_sort`: `indegrees[v]` counts the
occurrences of `v` across all adjacency rows. -/
def initIndeg (adj : List (List Nat)) : List Nat :=
  (List.range adj.length).foldl
    (fun ind u => (adj.getD u []).foldl (fun ind2 v => ind2.set v (ind2.getD v 0 + 1)) ind)
    (List.replicate adj.length 0)

/-- Body of `for &v in &adj_list[u]`: decrement `indegrees[v]` and enqueue
`v` when it reaches zero.  (At every call site the decremented entry is
positive, so `Nat` subtraction agrees with the Rust `usize` subtraction.) -/
def relaxAll (adj : List (List Nat)) (u : Nat) (st : List Nat × List Nat) :
    List Nat × List Nat :=
  (adj.getD u []).foldl
    (fun st2 v =>
      let ind2 := st2.1.set v (st2.1.getD v 0 - 1)
      if ind2.getD v 0 = 0 then (ind2, st2.2 ++ [v]) else (ind2, st2.2))
    st

/-- One round of the Kahn loop: pop the `size` vertices currently queued
(they become the batch), relaxing the successors of each; the newly
enqueued vertices form the next round's queue. -/
def processBatch (adj : List (List Nat)) (batch : List Nat) (ind : List Nat) :
    List Nat × List Nat :=
  batch.foldl (fun st u => relaxAll adj u st) (ind, [])

/-- The `while !q.is_empty()` loop of `toplogical_sort`, fuelled.  Each
nonempty round retires at least one vertex and no vertex is enqueued twice,
so `adj.length + 1` rounds (the fuel used below) always suffice. -/
def kahnLoop (adj : List (List Nat)) : Nat → List Nat → List Nat → List (List Nat)
  | 0, _, _ => []
  | fuel + 1, ind, q =>
    if q.isEmpty then []
    else
      let st := processBatch adj q ind
      q :: kahnLoop adj fuel st.1 st.2

/-- `TaskGraph::toplogical_sort` (spelling as in the source): batched Kahn
topological sort over the stored predecessor lists, with the final
`batches.reverse()`. -/
def toplogical_sort (adj : List (List Nat)) : List (List Nat) :=
  let ind := initIndeg adj
  let q0 := (List.range adj.length).filter fun i => ind.getD i 0 = 0
  (kahnLoop adj (adj.length + 1) ind q0).reverse

/-- The batch list computed by `TaskGraph::compile` (the Rust method prints
the batches; the value it derives from the pass list is this one). -/
def compileBatches (passes : List Pass) : List (List Nat) :=
  toplogical_sort (create_adjacency_list passes)

/-- Index of the batch containing task `v`. -/
def batchPos (batches : List (List Nat)) (v : Nat) : Nat :=
  batches.findIdx fun b => decide (v ∈ b)

/-- Scenario A of the spec: one writer and two readers of a single buffer. -/
def passWriteB : Pass := ⟨[⟨some 0, none, none, none, .Write⟩]⟩

/-- A reader of the same buffer as `passWriteB`. -/
def passReadB : Pass := ⟨[⟨some 0, none, none, none, .Read⟩]⟩

/-- The task list of scenario A. -/
def scenarioA : List Pass := [passWriteB, passReadB, passReadB]

/-- The middle task of scenario B: writes and reads the shared buffer. -/
def passWriteReadB : Pass :=
  ⟨[⟨some 0, none, none, none, .Write⟩, ⟨some 0, none, none, none, .Read⟩]⟩

/-- The task list of scenario B (redundant transitive edge `0 → 2`). -/
def scenarioB : List Pass := [passWriteB, passWriteReadB, passReadB]

/-- A task writing through sampler `0` only. -/
def passSamplerW : Pass := ⟨[⟨none, none, none, some 0, .Write⟩]⟩

/-- A task writing buffer `b` only. -/
def passBufW (b : Nat) : Pass := ⟨[⟨some b, none, none, none, .Write⟩]⟩

/-- Four tasks with pairwise disjoint buffers/images/image views, the first
two sharing only a sampler. -/
def scenarioSampler : List Pass := [passSamplerW, passSamplerW, passBufW 5, passBufW 6]

/-- Edge relation of a stored adjacency structure: `v` is listed in row
`u` (row `i` lists the earlier tasks that task `i` depends on). -/
def edgeRel (adj : List (List Nat)) (u v : Nat) : Prop := v ∈ adj.getD u []

/-- Reachability (reflexive-transitive closure) over the stored edges. -/
def Reach (adj : List (List Nat)) : Nat → Nat → Prop := Relation.ReflTransGen (edgeRel adj)

/-- Number of adjacency rows outside `done` that list `v`: the in-degree of
`v` in the queue graph restricted to unprocessed vertices. -/
def countInto (adj : List (List Nat)) (done : List Nat) (v : Nat) : Nat :=
  ((List.range adj.length).filter fun u =>
    decide (u ∉ done) && decide (v ∈ adj.getD u [])).length

end TaskGraph

namespace Pool

/-- Field mask of the handle encoding (`const MASK: u64 = 0xFFFF`). -/
def MASK : Nat := 0xFFFF

/-- Slots per page (`const PAGE_SIZE: usize = 10`). -/
def PAGE_SIZE : Nat := 10

/-- Width of the `u64` handle type. -/
def U64 : Nat := 2 ^ 64

/-- `encode(page, index, version)`: `(page << 32) | (index << 16) | version`
on `u64`.  The single trailing reduction mod `2^64` captures the `u64`
truncation of the shifts (bitwise or commutes with dropping high bits). -/
def encode (page index version : Nat) : Nat :=
  ((page <<< 32) ||| (index <<< 16) ||| version) % U64

/-- Decoded page field of a handle. -/
def dPage (id : Nat) : Nat := (id >>> 32) &&& MASK

/-- Decoded slot-in-page field of a handle. -/
def dIdx (id : Nat) : Nat := (id >>> 16) &&& MASK

/-- Decoded version field of a handle. -/
def dVer (id : Nat) : Nat := id &&& MASK

/-- `decode_as_usize(id)`: `((id >> 32) & MASK, (id >> 16) & MASK, id & MASK)`. -/
def decode_as_usize (id : Nat) : Nat × Nat × Nat := (dPage id, dIdx id, dVer id)

/-- One slot of a page: `(Option<Resource>, u64)`. -/
abbrev Slot (R : Type) := Option R × Nat

/-- `GpuResourcePool<Resource>`: paged slot storage, free list of previously
deleted handles, and the fresh-slot cursor. -/
structure PoolState (R : Type) where
  data : List (List (Slot R))
  free_indices : List Nat
  curr_page : Nat
  curr_index : Nat
deriving DecidableEq

/-- A fresh all-empty page (`std::array::from_fn(|_| (None, 0))`). -/
def emptyPage (R : Type) : List (Slot R) := List.replicate PAGE_SIZE (none, 0)

/-- `GpuResourcePool::new()`. -/
def PoolState.new (R : Type) : PoolState R := ⟨[emptyPage R], [], 0, 0⟩

/-- Read `self.data[page][index]`, `none` when out of bounds. -/
def slotAt (s : PoolState R) (p i : Nat) : Option (Slot R) :=
  (s.data[p]?).bind fun pg => pg[i]?

/-- Write `self.data[page][index] = x` (a no-op out of bounds; every call
site is in bounds, where the Rust indexing would otherwise panic). -/
def setSlot (s : PoolState R) (p i : Nat) (x : Slot R) : PoolState R :=
  { s with data := s.data.set p ((s.data.getD p []).set i x) }

/-- Failure kinds of the pool accessors: `oob` stands for the Rust
out-of-bounds indexing panic on `self.data[page][index]`, `invalid` for the
explicit `panic!("Attempted to acess with invalid ID")`. -/
inductive PoolErr where
  | oob
  | invalid
deriving DecidableEq, Repr

/-- The `if self.curr_index == PAGE_SIZE` block at the top of the fresh
path of `add`: append a blank page and move the cursor to its start. -/
def growIfFull (s : PoolState R) : PoolState R :=
  if s.curr_index = PAGE_SIZE then
    { s with data := s.data ++ [emptyPage R],
             curr_index := 0, curr_page := s.curr_page + 1 }
  else s

/-- `GpuResourcePool::add`: reuse the most recently freed slot (bumping the
version decoded from the stored handle), otherwise occupy the fresh-slot
cursor with version `0`, appending a new page when the current one is
full. -/
def add (s : PoolState R) (res : R) : Nat × PoolState R :=
  if s.free_indices.isEmpty then
    let s0 := growIfFull s
    let id := encode s0.curr_page s0.curr_index 0
    let s1 := setSlot s0 s0.curr_page s0.curr_index (some res, 0)
    (id, { s1 with curr_index := s0.curr_index + 1 })
  else
    let id := s.free_indices.getLast?.getD 0
    let s0 := { s with free_indices := s.free_indices.dropLast }
    let s1 := setSlot s0 (dPage id) (dIdx id) (some res, dVer id + 1)
    (encode (dPage id) (dIdx id) (dVer id + 1), s1)

/-- `GpuResourcePool::delete`: note that `res_opt.take()` empties the slot
before the version check, so a version-mismatch failure still leaves the
slot emptied. -/
def delete (s : PoolState R) (id : Nat) : Except PoolErr R × PoolState R :=
  match slotAt s (dPage id) (dIdx id) with
  | none => (.error .oob, s)
  | some (res_opt, res_version) =>
    let s1 := setSlot s (dPage id) (dIdx id) (none, res_version)
    match res_opt with
    | some res =>
      if res_version = dVer id then
        (.ok res,
          { setSlot s1 (dPage id) (dIdx id) (none, dVer id) with
            free_indices := s1.free_indices ++ [id] })
      else (.error .invalid, s1)
    | none => (.error .invalid, s1)

/-- `GpuResourcePool::get_ref`: same validation as `delete` but pure. -/
def get_ref (s : PoolState R) (id : Nat) : Except PoolErr R :=
  match slotAt s (dPage id) (dIdx id) with
  | none => .error .oob
  | some (res_opt, res_version) =>
    match res_opt with
    | some res => if res_version = dVer id then .ok res else .error .invalid
    | none => .error .invalid

/-- A pool operation issued by the owning layer. -/
inductive PoolOp (R : Type) where
  | addOp (res : R)
  | delOp (id : Nat)
deriving DecidableEq

/-- State transition of one operation (`get_ref` does not mutate). -/
def runOp (s : PoolState R) : PoolOp R → PoolState R
  | .addOp r => (add s r).2
  | .delOp id => (delete s id).2

/-- State after a sequence of operations. -/
def runOps (s : PoolState R) (ops : List (PoolOp R)) : PoolState R :=
  ops.foldl runOp s

/-- Handles of the currently live (occupied) slots: `add` returns exactly
`encode page index version` for the slot it stores the resource in, so
these are the handles held for the live resources. -/
def liveHandles (s : PoolState R) : List Nat :=
  ((List.range s.data.length).map fun p =>
    (List.range PAGE_SIZE).filterMap fun i =>
      match slotAt s p i with
      | some (some _, v) => some (encode p i v)
      | _ => none).flatten

/-- Strict lexicographic order of slot coordinates against the fresh-slot
cursor: the slot lies strictly before the cursor. -/
def slotLt (p i cp ci : Nat) : Prop := p < cp ∨ (p = cp ∧ i < ci)

/-- Invariant of every reachable pool state. -/
structure PoolInv (s : PoolState R) : Prop where
  hlen : s.data.length = s.curr_page + 1
  hpages : ∀ pg ∈ s.data, pg.length = PAGE_SIZE
  hci : s.curr_index ≤ PAGE_SIZE
  hfree : ∀ id ∈ s.free_indices,
    slotAt s (dPage id) (dIdx id) = some (none, dVer id) ∧
    slotLt (dPage id) (dIdx id) s.curr_page s.curr_index
  hfreeinj : s.free_indices.Pairwise fun a b => (dPage a, dIdx a) ≠ (dPage b, dIdx b)
  hver : ∀ p i x v, slotAt s p i = some (x, v) → v ≤ 2 ^ 16
  htail : ∀ i, s.curr_index ≤ i → i < PAGE_SIZE → slotAt s s.curr_page i = some (none, 0)

/-- Computable check that every stored version stamp is below `2^16`
(no slot has been reused `2^16` times). -/
def versionsOk (s : PoolState R) : Bool :=
  s.data.all fun pg => pg.all fun sl => sl.2 < 2 ^ 16

/-- State of a slot after a successful `delete` through a handle with
version field `v`: the stored version never returns to `v` while the slot
is occupied. -/
def StaleSlot (s : PoolState R) (p i v : Nat) : Prop :=
  slotLt p i s.curr_page s.curr_index ∧
  ∃ x w, slotAt s p i = some (x, w) ∧ v ≤ w ∧ (x ≠ none → v < w)

/-- The delete/re-add cycles of the version-overflow scenario: cycle `j`
deletes the resource of slot `(0,0)` through its current handle
`encode 0 0 j` and immediately re-adds a resource, reusing the slot. -/
def cycleOps (k : Nat) : List (PoolOp Nat) :=
  (List.range k).flatMap fun j => [PoolOp.delOp (encode 0 0 j), PoolOp.addOp 300]

/-- Two adds followed by `2^16` delete/re-add cycles of slot `(0,0)`. -/
def overflowOps : List (PoolOp Nat) :=
  PoolOp.addOp 100 :: PoolOp.addOp 200 :: cycleOps 65536

/-- Explicit pool state after the two adds and `k` cycles of `overflowOps`:
slot `(0,0)` carries version `k`, slot `(0,1)` is untouched. -/
def cycState (k : Nat) : PoolState Nat :=
  ⟨[[(some (if k = 0 then 100 else 300), k), (some 200, 0), (none, 0), (none, 0), (none, 0),
     (none, 0), (none, 0), (none, 0), (none, 0), (none, 0)]], [], 0, 2⟩

end Pool

end Vulcany

namespace Vulcany

namespace TaskGraph

/-- C1: on the three-task list `[write B, read B, read B]` the hazard scan
records exactly the dependencies of task 1 on task 0 and task 2 on task 0
(stored as predecessor rows `[[], [0], [0]]`), and compile returns the
batches `[[0], [1, 2]]`: the writer's batch strictly before the batch with
both readers. -/
theorem c1_scenarioA :
    hazardScan scenarioA = [[], [0], [0]] ∧
    compileBatches scenarioA = [[0], [1, 2]] := by
  constructor <;> decide

/-- C3 helper: the access-mode match returns `true` exactly when not both
modes are `Read`. -/
theorem hazard_acess_iff (a b : ResourceAcess) :
    hazard_acess a b = true ↔ ¬(a = .Read ∧ b = .Read) := by
  cases a <;> cases b <;> simp [hazard_acess]

/-- C3 helper: unfolding `check_dependencies` to an existential over the two
resource lists. -/
theorem check_dependencies_iff (a b : Pass) :
    check_dependencies a b = true ↔
      ∃ ra ∈ a.resources, ∃ rb ∈ b.resources,
        same_resource ra rb = true ∧ ¬(ra.acess = .Read ∧ rb.acess = .Read) := by
  simp only [check_dependencies, List.any_eq_true, Bool.and_eq_true]
  constructor
  · rintro ⟨ra, hra, rb, hrb, hsame, hhaz⟩
    exact ⟨ra, hra, rb, hrb, hsame, (hazard_acess_iff _ _).mp hhaz⟩
  · rintro ⟨ra, hra, rb, hrb, hsame, hhaz⟩
    exact ⟨ra, hra, rb, hrb, hsame, (hazard_acess_iff _ _).mpr hhaz⟩

/-- The row of `hazardScan` for an in-range task. -/
theorem hazardScan_getD_of_lt (passes : List Pass) (i : Nat) (hi : i < passes.length) :
    (hazardScan passes).getD i [] =
      (List.range i).filter fun j =>
        check_dependencies (passes.getD j default_pass) (passes.getD i default_pass) := by
  unfold hazardScan
  rw [List.getD_eq_getElem?_getD, List.getElem?_map]
  simp [List.getElem?_range hi]

/-- The row of `hazardScan` for an out-of-range index is empty. -/
theorem hazardScan_getD_of_le (passes : List Pass) (i : Nat) (hi : passes.length ≤ i) :
    (hazardScan passes).getD i [] = [] := by
  unfold hazardScan
  rw [List.getD_eq_getElem?_getD]
  rw [List.getElem?_eq_none (by simpa using hi)]
  rfl

/-- C3: the hazard scan records an edge from task `j` to task `i` (stored as
`j` in row `i`) exactly when `j < i` and some access of task `j` and some
access of task `i` name the same resource with not both accesses `Read`;
moreover the pair contributes at most one edge however many resources the
two tasks share. -/
theorem c3_hazard_edge_iff (passes : List Pass) (i j : Nat) :
    (j ∈ (hazardScan passes).getD i [] ↔
      j < i ∧ i < passes.length ∧
        ∃ ra ∈ (passes.getD j default_pass).resources,
          ∃ rb ∈ (passes.getD i default_pass).resources,
            same_resource ra rb = true ∧ ¬(ra.acess = .Read ∧ rb.acess = .Read)) ∧
    ((hazardScan passes).getD i []).count j ≤ 1 := by
  rcases Nat.lt_or_ge i passes.length with hi | hi
  · rw [hazardScan_getD_of_lt passes i hi]
    constructor
    · simp only [List.mem_filter, List.mem_range]
      rw [check_dependencies_iff]
      constructor
      · rintro ⟨h1, h2⟩
        exact ⟨h1, hi, h2⟩
      · rintro ⟨h1, _, h2⟩
        exact ⟨h1, h2⟩
    · exact List.nodup_iff_count_le_one.mp (List.Nodup.filter _ (List.nodup_range i)) j
  · rw [hazardScan_getD_of_le passes i hi]
    constructor
    · simp only [List.not_mem_nil, false_iff, not_and]
      intro _ hlt
      omega
    · simp


end TaskGraph

namespace Pool

/-- Bitwise or of a multiple of `2^k` with a value below `2^k` is addition. -/
theorem lor_mul_pow_add {k c b : Nat} (hb : b < 2 ^ k) :
    (2 ^ k * c) ||| b = 2 ^ k * c + b := by
  apply Nat.eq_of_testBit_eq
  intro j
  rw [Nat.testBit_or]
  rcases Nat.lt_or_ge j k with hj | hj
  · have h1 : Nat.testBit (2 ^ k * c + b) j = Nat.testBit b j := by
      rw [Nat.testBit_mul_pow_two_add c hb j, if_pos hj]
    have h2 : Nat.testBit (2 ^ k * c) j = false := by
      have := Nat.testBit_mul_pow_two_add c (show 0 < 2 ^ k from Nat.pos_pow_of_pos k (by omega)) j
      rw [Nat.add_zero] at this
      rw [this, if_pos hj]
      exact Nat.zero_testBit j
    rw [h1, h2, Bool.false_or]
  · have h1 : Nat.testBit (2 ^ k * c + b) j = Nat.testBit c (j - k) := by
      rw [Nat.testBit_mul_pow_two_add c hb j, if_neg (by omega)]
    have h2 : Nat.testBit (2 ^ k * c) j = Nat.testBit c (j - k) := by
      have := Nat.testBit_mul_pow_two_add c (show 0 < 2 ^ k from Nat.pos_pow_of_pos k (by omega)) j
      rw [Nat.add_zero] at this
      rw [this, if_neg (by omega)]
    have h3 : Nat.testBit b j = false :=
      Nat.testBit_lt_two_pow (Nat.lt_of_lt_of_le hb (Nat.pow_le_pow_right (by omega) hj))
    rw [h1, h2, h3, Bool.or_false]

/-- In-range `encode` is plain positional arithmetic (the page field wraps
at `2^32` because the shift drops its high bits). -/
theorem encode_eq {i v : Nat} (p : Nat) (hi : i < 2 ^ 16) (hv : v < 2 ^ 16) :
    encode p i v = p % 2 ^ 32 * 2 ^ 32 + (i * 2 ^ 16 + v) := by
  have hlow : (i <<< 16) ||| v = i * 2 ^ 16 + v := by
    rw [Nat.shiftLeft_eq, Nat.mul_comm i, lor_mul_pow_add hv, Nat.mul_comm]
  have hlowlt : i * 2 ^ 16 + v < 2 ^ 32 := by
    have : i * 2 ^ 16 ≤ (2 ^ 16 - 1) * 2 ^ 16 := Nat.mul_le_mul_right _ (by omega)
    omega
  have hhigh : (p <<< 32) ||| (i * 2 ^ 16 + v) = 2 ^ 32 * p + (i * 2 ^ 16 + v) := by
    rw [Nat.shiftLeft_eq, Nat.mul_comm p, lor_mul_pow_add hlowlt]
  unfold encode U64
  rw [Nat.lor_assoc, hlow, hhigh]
  have e16 : (2 : Nat) ^ 16 = 65536 := by norm_num
  have e32 : (2 : Nat) ^ 32 = 4294967296 := by norm_num
  have e64 : (2 : Nat) ^ 64 = 18446744073709551616 := by norm_num
  rw [e16, e32, e64] at *
  omega

/-- Decoding an in-range encoding recovers the fields (page mod `2^16`). -/
theorem decode_encode {i v : Nat} (p : Nat) (hi : i < 2 ^ 16) (hv : v < 2 ^ 16) :
    decode_as_usize (encode p i v) = (p % 2 ^ 16, i, v) := by
  have he := encode_eq p hi hv
  have hlowlt : i * 2 ^ 16 + v < 2 ^ 32 := by
    have : i * 2 ^ 16 ≤ (2 ^ 16 - 1) * 2 ^ 16 := Nat.mul_le_mul_right _ (by omega)
    omega
  have hmask : MASK = 2 ^ 16 - 1 := by decide
  unfold decode_as_usize dPage dIdx dVer
  rw [he, hmask, Nat.shiftRight_eq_div_pow, Nat.shiftRight_eq_div_pow,
    Nat.and_pow_two_sub_one_eq_mod, Nat.and_pow_two_sub_one_eq_mod,
    Nat.and_pow_two_sub_one_eq_mod]
  simp only [Prod.mk.injEq]
  have e16 : (2 : Nat) ^ 16 = 65536 := by norm_num
  have e32 : (2 : Nat) ^ 32 = 4294967296 := by norm_num
  rw [e16, e32] at *
  refine ⟨?_, ?_, ?_⟩ <;> omega

/-- Distinct in-range field triples (page below `2^32`) encode to distinct
handles. -/
theorem encode_inj {p1 i1 v1 p2 i2 v2 : Nat} (hp1 : p1 < 2 ^ 32) (hp2 : p2 < 2 ^ 32)
    (hi1 : i1 < 2 ^ 16) (hi2 : i2 < 2 ^ 16) (hv1 : v1 < 2 ^ 16) (hv2 : v2 < 2 ^ 16)
    (h : encode p1 i1 v1 = encode p2 i2 v2) : p1 = p2 ∧ i1 = i2 ∧ v1 = v2 := by
  rw [encode_eq p1 hi1 hv1, encode_eq p2 hi2 hv2] at h
  have e16 : (2 : Nat) ^ 16 = 65536 := by norm_num
  have e32 : (2 : Nat) ^ 32 = 4294967296 := by norm_num
  rw [e16, e32] at *
  omega

/-- Bits of a multiple of a power of two. -/
theorem testBit_two_pow_mul (k a j : Nat) :
    Nat.testBit (2 ^ k * a) j = if j < k then false else Nat.testBit a (j - k) := by
  have h := Nat.testBit_mul_pow_two_add a (Nat.two_pow_pos k) j
  rw [Nat.add_zero] at h
  rw [h]
  rcases Nat.lt_or_ge j k with hj | hj
  · rw [if_pos hj, if_pos hj, Nat.zero_testBit]
  · rw [if_neg (by omega), if_neg (by omega)]

/-- Bitwise or of two multiples of the same power of two. -/
theorem lor_two_pow_mul (k a b : Nat) : (2 ^ k * a) ||| (2 ^ k * b) = 2 ^ k * (a ||| b) := by
  apply Nat.eq_of_testBit_eq
  intro j
  rw [Nat.testBit_or, testBit_two_pow_mul, testBit_two_pow_mul, testBit_two_pow_mul]
  rcases Nat.lt_or_ge j k with hj | hj
  · simp [if_pos hj]
  · simp [if_neg (Nat.not_lt.mpr hj), Nat.testBit_or]

/-- A version field of exactly `2^16` overflows into bit 0 of the index
field: the handle collides with version `0` of index `i ||| 1`. -/
theorem encode_overflow (p i : Nat) : encode p i (2 ^ 16) = encode p (i ||| 1) 0 := by
  unfold encode
  rw [Nat.lor_assoc, Nat.lor_assoc, Nat.or_zero]
  have h1 : (i <<< 16) ||| 2 ^ 16 = (i ||| 1) <<< 16 := by
    rw [Nat.shiftLeft_eq, Nat.shiftLeft_eq, Nat.mul_comm i, Nat.mul_comm (i ||| 1)]
    have h2 : (2 : Nat) ^ 16 = 2 ^ 16 * 1 := (Nat.mul_one _).symm
    nth_rewrite 2 [h2]
    exact lor_two_pow_mul 16 i 1
  rw [h1]


theorem slotAt_some_bounds {R : Type} {s : PoolState R} {p i : Nat} {y : Slot R}
    (h : slotAt s p i = some y) :
    p < s.data.length ∧ ∃ pg, s.data[p]? = some pg ∧ i < pg.length ∧ pg[i]? = some y := by
  unfold slotAt at h
  rw [Option.bind_eq_some] at h
  obtain ⟨pg, hpg, hi⟩ := h
  have hplen : p < s.data.length := by
    by_contra hc
    rw [List.getElem?_eq_none (by omega)] at hpg
    exact Option.noConfusion hpg
  have hilen : i < pg.length := by
    by_contra hc
    rw [List.getElem?_eq_none (by omega)] at hi
    exact Option.noConfusion hi
  exact ⟨hplen, pg, hpg, hilen, hi⟩

theorem slotAt_setSlot_self {R : Type} {s : PoolState R} {p i : Nat} {x : Slot R}
    (y : Slot R) (h : slotAt s p i = some y) :
    slotAt (setSlot s p i x) p i = some x := by
  obtain ⟨hplen, pg, hpg, hilen, hi⟩ := slotAt_some_bounds h
  have hgd : s.data.getD p [] = pg := by
    rw [List.getD_eq_getElem?_getD, hpg]
    rfl
  unfold slotAt setSlot
  simp only [hgd, List.getElem?_set_self hplen, Option.some_bind]
  exact List.getElem?_set_self hilen

theorem slotAt_setSlot_ne {R : Type} {s : PoolState R} {p i p2 i2 : Nat} {x : Slot R}
    (h : ¬(p2 = p ∧ i2 = i)) :
    slotAt (setSlot s p i x) p2 i2 = slotAt s p2 i2 := by
  unfold slotAt setSlot
  rcases eq_or_ne p2 p with hp | hp
  · subst hp
    have hi : i2 ≠ i := fun hc => h ⟨rfl, hc⟩
    rcases Nat.lt_or_ge p2 s.data.length with hplen | hplen
    · have hgd : s.data.getD p2 [] = s.data[p2] := by
        rw [List.getD_eq_getElem?_getD, List.getElem?_eq_getElem hplen]
        rfl
      simp only [List.getElem?_set_self hplen,
        List.getElem?_eq_getElem hplen, Option.some_bind]
      rw [hgd, List.getElem?_set_ne (Ne.symm hi)]
    · have hlen2 : (s.data.set p2 ((s.data.getD p2 []).set i x)).length ≤ p2 := by
        rw [List.length_set]
        omega
      rw [List.getElem?_eq_none hlen2, List.getElem?_eq_none (by omega)]
  · rw [List.getElem?_set_ne (Ne.symm hp)]

theorem dVer_lt (id : Nat) : dVer id < 2 ^ 16 := by
  unfold dVer
  have hmask : MASK = 2 ^ 16 - 1 := by decide
  rw [hmask, Nat.and_pow_two_sub_one_eq_mod]
  exact Nat.mod_lt _ (by norm_num)

theorem data_setSlot_length {R : Type} (s : PoolState R) (p i : Nat) (x : Slot R) :
    (setSlot s p i x).data.length = s.data.length := by
  unfold setSlot
  exact List.length_set ..

theorem hpages_setSlot {R : Type} {s : PoolState R} (p i : Nat) (x : Slot R)
    (h : ∀ pg ∈ s.data, pg.length = PAGE_SIZE) :
    ∀ pg ∈ (setSlot s p i x).data, pg.length = PAGE_SIZE := by
  intro pg hm
  rcases Nat.lt_or_ge p s.data.length with hp | hp
  · rcases List.mem_or_eq_of_mem_set hm with hold | hnew
    · exact h pg hold
    · subst hnew
      rw [List.length_set]
      have : s.data.getD p [] = s.data[p] := by
        rw [List.getD_eq_getElem?_getD, List.getElem?_eq_getElem hp]
        rfl
      rw [this]
      exact h _ (List.getElem_mem hp)
  · unfold setSlot at hm
    rw [List.set_eq_of_length_le (by omega)] at hm
    exact h pg hm

theorem slotAt_setSlot_same {R : Type} {s : PoolState R} {p i : Nat} {x : Slot R}
    (h : slotAt s p i = some x) (q j : Nat) :
    slotAt (setSlot s p i x) q j = slotAt s q j := by
  by_cases hqj : q = p ∧ j = i
  · obtain ⟨hq, hj⟩ := hqj
    subst hq; subst hj
    rw [slotAt_setSlot_self _ h, h]
  · exact slotAt_setSlot_ne hqj

theorem slot_page_bound {R : Type} {s : PoolState R} {p i : Nat} {y : Slot R}
    (hpages : ∀ pg ∈ s.data, pg.length = PAGE_SIZE)
    (h : slotAt s p i = some y) : p < s.data.length ∧ i < PAGE_SIZE := by
  obtain ⟨hplen, pg, hpg, hilen, _⟩ := slotAt_some_bounds h
  have : pg ∈ s.data := by
    have := List.getElem?_eq_getElem hplen
    rw [this] at hpg
    exact (Option.some.injEq .. ▸ hpg) ▸ List.getElem_mem hplen
  rw [hpages pg this] at hilen
  exact ⟨hplen, hilen⟩

theorem occupied_slotLt {R : Type} {s : PoolState R} (inv : PoolInv s) {p i : Nat}
    {r : R} {v : Nat} (h : slotAt s p i = some (some r, v)) :
    slotLt p i s.curr_page s.curr_index := by
  obtain ⟨hplen, hilt⟩ := slot_page_bound inv.hpages h
  have hple : p ≤ s.curr_page := by
    have := inv.hlen
    omega
  rcases Nat.lt_or_ge p s.curr_page with hp | hp
  · exact Or.inl hp
  · have hpe : p = s.curr_page := by omega
    subst hpe
    rcases Nat.lt_or_ge i s.curr_index with hi | hi
    · exact Or.inr ⟨rfl, hi⟩
    · have := inv.htail i hi hilt
      rw [h] at this
      exact absurd this (by simp)

/-- The pool after `new()` satisfies the invariant. -/
theorem inv_new (R : Type) : PoolInv (PoolState.new R) := by
  refine ⟨rfl, ?_, by norm_num [PoolState.new, PAGE_SIZE], ?_, ?_, ?_, ?_⟩
  · intro pg hm
    unfold PoolState.new at hm
    simp only [List.mem_singleton] at hm
    subst hm
    exact List.length_replicate ..
  · intro id hm
    exact absurd hm (List.not_mem_nil id)
  · exact List.Pairwise.nil
  · intro p i x v h
    unfold PoolState.new slotAt at h
    match hp : p with
    | 0 =>
      simp only [List.getElem?_cons_zero, Option.some_bind] at h
      have : (x, v) ∈ emptyPage R := by
        rcases hq : (emptyPage R)[i]? with _ | y
        · rw [hq] at h; exact absurd h (by simp)
        · rw [hq] at h
          have hy : y = (x, v) := by simpa using h
          subst hy
          exact List.getElem?_mem hq
      unfold emptyPage at this
      have := List.eq_of_mem_replicate this
      have hv : v = 0 := by
        have h2 := congrArg Prod.snd this
        simpa using h2
      omega
    | n + 1 =>
      simp only [List.getElem?_cons_succ, List.getElem?_nil, Option.none_bind] at h
      exact absurd h (by simp)
  · intro i hi hlt
    unfold PoolState.new slotAt
    simp only [List.getElem?_cons_zero, Option.some_bind]
    unfold emptyPage
    rw [List.getElem?_replicate, if_pos (by simpa [PAGE_SIZE] using hlt)]

/-- C9: calling `delete` with a handle whose decoded slot holds a live
resource but whose decoded version mismatches the stored version fails with
the invalid-handle error, yet has already emptied the slot (the
`res_opt.take()` happens before the check); the slot's version, all other
slots, the free list and the cursor are unchanged. -/
theorem c9_delete_mismatch_mutates {R : Type} (s : PoolState R) (id : Nat) (r : R) (w : Nat)
    (hslot : slotAt s (dPage id) (dIdx id) = some (some r, w))
    (hne : w ≠ dVer id) :
    delete s id = (.error .invalid, setSlot s (dPage id) (dIdx id) (none, w)) ∧
    (delete s id).2.free_indices = s.free_indices ∧
    slotAt (delete s id).2 (dPage id) (dIdx id) = some (none, w) ∧
    (∀ p2 i2, ¬(p2 = dPage id ∧ i2 = dIdx id) →
      slotAt (delete s id).2 p2 i2 = slotAt s p2 i2) ∧
    (delete s id).2.curr_page = s.curr_page ∧
    (delete s id).2.curr_index = s.curr_index := by
  have hdel : delete s id = (.error .invalid, setSlot s (dPage id) (dIdx id) (none, w)) := by
    unfold delete
    rw [hslot]
    simp only [if_neg hne]
  refine ⟨hdel, ?_, ?_, ?_, ?_, ?_⟩
  · rw [hdel]
    rfl
  · rw [hdel]
    exact slotAt_setSlot_self _ hslot
  · intro p2 i2 hne2
    rw [hdel]
    exact slotAt_setSlot_ne hne2
  · rw [hdel]
    rfl
  · rw [hdel]
    rfl

/-- Witness for C9 on a concrete pool: one resource at slot `(0,0)` version
`0`, deleted through a handle with version field `5`. -/
theorem c9_witness :
    slotAt (runOps (PoolState.new Nat) [.addOp 3]) (dPage (encode 0 0 5)) (dIdx (encode 0 0 5)) =
      some (some 3, 0) ∧
    (0 : Nat) ≠ dVer (encode 0 0 5) ∧
    delete (runOps (PoolState.new Nat) [.addOp 3]) (encode 0 0 5) =
      (.error .invalid,
        setSlot (runOps (PoolState.new Nat) [.addOp 3])
          (dPage (encode 0 0 5)) (dIdx (encode 0 0 5)) (none, 0)) :=
  ⟨by decide, by decide,
    (c9_delete_mismatch_mutates (runOps (PoolState.new Nat) [.addOp 3]) (encode 0 0 5) 3 0
      (by decide) (by decide)).1⟩



theorem slotAt_set_ci {R : Type} (s : PoolState R) (c p i : Nat) :
    slotAt { s with curr_index := c } p i = slotAt s p i := rfl

theorem slotAt_set_free {R : Type} (s : PoolState R) (f : List Nat) (p i : Nat) :
    slotAt { s with free_indices := f } p i = slotAt s p i := rfl

theorem slotAt_grow_lt {R : Type} {s : PoolState R} {p : Nat} (i : Nat)
    (hp : p < s.data.length) :
    slotAt { s with data := s.data ++ [emptyPage R],
                    curr_index := 0, curr_page := s.curr_page + 1 } p i = slotAt s p i := by
  show ((s.data ++ [emptyPage R])[p]?.bind fun pg => pg[i]?) = s.data[p]?.bind fun pg => pg[i]?
  rw [List.getElem?_append, if_pos hp]

theorem slotAt_grow_new {R : Type} {s : PoolState R} (i : Nat) (hi : i < PAGE_SIZE) :
    slotAt { s with data := s.data ++ [emptyPage R],
                    curr_index := 0, curr_page := s.curr_page + 1 } s.data.length i =
      some (none, 0) := by
  show ((s.data ++ [emptyPage R])[s.data.length]?.bind fun pg => pg[i]?) = some (none, 0)
  rw [List.getElem?_append_right le_rfl]
  simp only [Nat.sub_self, List.getElem?_cons_zero, Option.some_bind]
  unfold emptyPage
  rw [List.getElem?_replicate, if_pos hi]

/-- The page-growth step preserves the invariant and leaves the cursor
strictly inside the current page. -/
theorem inv_grow {R : Type} {s : PoolState R} (inv : PoolInv s) :
    PoolInv (growIfFull s) ∧ (growIfFull s).curr_index < PAGE_SIZE ∧
    (growIfFull s).free_indices = s.free_indices ∧
    s.data.length ≤ (growIfFull s).data.length ∧
    (∀ p i, p < s.data.length → slotAt (growIfFull s) p i = slotAt s p i) := by
  unfold growIfFull
  by_cases h : s.curr_index = PAGE_SIZE
  · rw [if_pos h]
    have hsame : ∀ p i, p < s.data.length →
        slotAt { s with data := s.data ++ [emptyPage R],
                        curr_index := 0, curr_page := s.curr_page + 1 } p i = slotAt s p i :=
      fun p i hp => slotAt_grow_lt i hp
    refine ⟨⟨?_, ?_, ?_, ?_, ?_, ?_, ?_⟩, ?_, rfl, ?_, hsame⟩
    · show (s.data ++ [emptyPage R]).length = s.curr_page + 1 + 1
      rw [List.length_append, inv.hlen]
      rfl
    · intro pg hm
      rcases List.mem_append.mp hm with hold | hnew
      · exact inv.hpages pg hold
      · rw [List.mem_singleton.mp hnew]
        exact List.length_replicate ..
    · show (0 : Nat) <= PAGE_SIZE
      exact Nat.zero_le _
    · intro id hm
      obtain ⟨hs, hlt⟩ := inv.hfree id hm
      have hp : dPage id < s.data.length := (slot_page_bound inv.hpages hs).1
      refine ⟨by rw [hsame _ _ hp]; exact hs, Or.inl ?_⟩
      show dPage id < s.curr_page + 1
      have := inv.hlen
      omega
    · exact inv.hfreeinj
    · intro p i x v hs
      rcases Nat.lt_or_ge p s.data.length with hp | hp
      · rw [hsame _ _ hp] at hs
        exact inv.hver p i x v hs
      · obtain ⟨hplen, pg, hpg, hilen, hival⟩ := slotAt_some_bounds hs
        have hplen2 : p < (s.data ++ [emptyPage R]).length := hplen
        rw [List.length_append] at hplen2
        have hpe : p = s.data.length := by
          simp only [List.length_cons, List.length_nil] at hplen2
          omega
        subst hpe
        have hi10 : i < PAGE_SIZE := by
          have hpg2 : (s.data ++ [emptyPage R])[s.data.length]? = some pg := hpg
          rw [List.getElem?_append_right le_rfl] at hpg2
          simp only [Nat.sub_self, List.getElem?_cons_zero] at hpg2
          have hpge : emptyPage R = pg := by simpa using hpg2
          subst hpge
          unfold emptyPage at hilen
          rw [List.length_replicate] at hilen
          exact hilen
        rw [slotAt_grow_new i hi10] at hs
        cases hs
        exact Nat.zero_le _
    · intro i hci hilt
      have hgoal := @slotAt_grow_new R s i hilt
      rw [show s.data.length = s.curr_page + 1 from inv.hlen] at hgoal
      exact hgoal
    · show (0 : Nat) < PAGE_SIZE
      decide
    · show s.data.length ≤ (s.data ++ [emptyPage R]).length
      simp
  · rw [if_neg h]
    have := inv.hci
    exact ⟨inv, by unfold PAGE_SIZE at *; omega, rfl, le_rfl, fun _ _ _ => rfl⟩

theorem add_eq_fresh {R : Type} {s : PoolState R} (hfe : s.free_indices = []) (res : R) :
    add s res = (encode (growIfFull s).curr_page (growIfFull s).curr_index 0,
      { setSlot (growIfFull s) (growIfFull s).curr_page (growIfFull s).curr_index (some res, 0) with
        curr_index := (growIfFull s).curr_index + 1 }) := by
  unfold add
  rw [if_pos (by rw [hfe]; rfl)]

/-- Facts about a fresh-path `add` (empty free list): the returned handle
encodes the cursor slot with version `0`, the slot was blank before and
holds the resource with version `0` after, and the invariant persists. -/
theorem add_fresh_spec {R : Type} {s : PoolState R} (inv : PoolInv s)
    (hfe : s.free_indices = []) (res : R) :
    (add s res).1 = encode (growIfFull s).curr_page (growIfFull s).curr_index 0 ∧
    slotAt (growIfFull s) (growIfFull s).curr_page (growIfFull s).curr_index = some (none, 0) ∧
    slotAt (add s res).2 (growIfFull s).curr_page (growIfFull s).curr_index =
      some (some res, 0) ∧
    PoolInv (add s res).2 ∧
    (add s res).2.data.length = (growIfFull s).data.length ∧
    (growIfFull s).curr_index < PAGE_SIZE ∧
    (growIfFull s).data.length = (growIfFull s).curr_page + 1 ∧
    s.data.length ≤ (growIfFull s).data.length ∧
    (add s res).2.free_indices = [] ∧
    (∀ q j, ¬(q = (growIfFull s).curr_page ∧ j = (growIfFull s).curr_index) →
      slotAt (add s res).2 q j = slotAt (growIfFull s) q j) := by
  obtain ⟨inv0, hci0, hfr0, hmono, hsame⟩ := inv_grow inv
  have hslot0 : slotAt (growIfFull s) (growIfFull s).curr_page (growIfFull s).curr_index =
      some (none, 0) := inv0.htail _ le_rfl hci0
  rw [add_eq_fresh hfe res]
  have hfree2 : ({ setSlot (growIfFull s) (growIfFull s).curr_page (growIfFull s).curr_index
      ((some res : Option R), 0) with
      curr_index := (growIfFull s).curr_index + 1 } : PoolState R).free_indices = [] := by
    show (growIfFull s).free_indices = []
    rw [hfr0, hfe]
  have hself : slotAt ({ setSlot (growIfFull s) (growIfFull s).curr_page
      (growIfFull s).curr_index ((some res : Option R), 0) with
      curr_index := (growIfFull s).curr_index + 1 } : PoolState R)
      (growIfFull s).curr_page (growIfFull s).curr_index = some (some res, 0) := by
    rw [slotAt_set_ci]
    exact slotAt_setSlot_self _ hslot0
  have hother : ∀ q j, ¬(q = (growIfFull s).curr_page ∧ j = (growIfFull s).curr_index) →
      slotAt ({ setSlot (growIfFull s) (growIfFull s).curr_page
        (growIfFull s).curr_index ((some res : Option R), 0) with
        curr_index := (growIfFull s).curr_index + 1 } : PoolState R) q j =
      slotAt (growIfFull s) q j := by
    intro q j hne
    rw [slotAt_set_ci]
    exact slotAt_setSlot_ne hne
  refine ⟨rfl, hslot0, hself, ?_, ?_, hci0, ?_, hmono, hfree2, hother⟩
  · refine ⟨?_, ?_, ?_, ?_, ?_, ?_, ?_⟩
    · show (setSlot (growIfFull s) _ _ _).data.length = (growIfFull s).curr_page + 1
      rw [data_setSlot_length]
      exact inv0.hlen
    · exact hpages_setSlot _ _ _ inv0.hpages
    · show (growIfFull s).curr_index + 1 ≤ PAGE_SIZE
      omega
    · intro id hm
      rw [hfree2] at hm
      exact absurd hm (List.not_mem_nil id)
    · rw [hfree2]
      exact List.Pairwise.nil
    · intro p i x v hs
      by_cases hpi : p = (growIfFull s).curr_page ∧ i = (growIfFull s).curr_index
      · obtain ⟨hp, hi⟩ := hpi
        subst hp; subst hi
        rw [hself] at hs
        cases hs
        exact Nat.zero_le _
      · rw [hother p i hpi] at hs
        exact inv0.hver p i x v hs
    · intro i hge hlt
      have hge2 : (growIfFull s).curr_index + 1 ≤ i := hge
      exact (hother (growIfFull s).curr_page i (by omega)).trans
        (inv0.htail i (by omega) hlt)
  · show (setSlot (growIfFull s) _ _ _).data.length = (growIfFull s).data.length
    exact data_setSlot_length ..
  · exact inv0.hlen

theorem add_eq_reuse {R : Type} {s : PoolState R} {id : Nat}
    (hl : s.free_indices.getLast? = some id) (res : R) :
    add s res = (encode (dPage id) (dIdx id) (dVer id + 1),
      setSlot { s with free_indices := s.free_indices.dropLast }
        (dPage id) (dIdx id) (some res, dVer id + 1)) := by
  have hne : s.free_indices ≠ [] := by
    intro hc
    rw [hc] at hl
    exact Option.noConfusion hl
  unfold add
  rw [if_neg (by rw [Bool.not_eq_true, List.isEmpty_eq_false]; exact hne), hl]
  rfl

/-- Facts about a reuse-path `add` (nonempty free list): the popped handle
addresses a freed slot, whose stored version is bumped by one; the bumped
version is both stored and encoded in the returned handle, and the
invariant persists. -/
theorem add_reuse_spec {R : Type} {s : PoolState R} (inv : PoolInv s)
    (hfe : s.free_indices ≠ []) (res : R) :
    ∃ id, s.free_indices.getLast? = some id ∧
      (add s res).1 = encode (dPage id) (dIdx id) (dVer id + 1) ∧
      slotAt s (dPage id) (dIdx id) = some (none, dVer id) ∧
      slotAt (add s res).2 (dPage id) (dIdx id) = some (some res, dVer id + 1) ∧
      PoolInv (add s res).2 ∧
      (add s res).2.data.length = s.data.length ∧
      dPage id < s.data.length ∧ dIdx id < PAGE_SIZE ∧
      (add s res).2.curr_page = s.curr_page ∧ (add s res).2.curr_index = s.curr_index ∧
      (∀ q j, ¬(q = dPage id ∧ j = dIdx id) → slotAt (add s res).2 q j = slotAt s q j) := by
  obtain ⟨id, hl⟩ := Option.isSome_iff_exists.mp (List.getLast?_isSome.mpr hfe)
  obtain ⟨ys, hys⟩ := List.getLast?_eq_some_iff.mp hl
  have hdrop : s.free_indices.dropLast = ys := by
    rw [hys]
    exact List.dropLast_concat
  have hmem : id ∈ s.free_indices := by
    rw [hys]
    exact List.mem_append_right ys (List.mem_singleton_self id)
  obtain ⟨hslot, hlt⟩ := inv.hfree id hmem
  obtain ⟨hpb, hib⟩ := slot_page_bound inv.hpages hslot
  have hcross : ∀ a ∈ ys, (dPage a, dIdx a) ≠ (dPage id, dIdx id) := by
    have hpw := inv.hfreeinj
    rw [hys] at hpw
    obtain ⟨-, -, hrel⟩ := List.pairwise_append.mp hpw
    intro a ha
    exact hrel a ha id (List.mem_singleton_self id)
  rw [add_eq_reuse hl res]
  have hslot0 : slotAt { s with free_indices := s.free_indices.dropLast }
      (dPage id) (dIdx id) = some ((none : Option R), dVer id) := hslot
  have hself : slotAt (setSlot { s with free_indices := s.free_indices.dropLast }
      (dPage id) (dIdx id) ((some res : Option R), dVer id + 1)) (dPage id) (dIdx id) =
      some (some res, dVer id + 1) :=
    slotAt_setSlot_self _ hslot0
  have hother : ∀ q j, ¬(q = dPage id ∧ j = dIdx id) →
      slotAt (setSlot { s with free_indices := s.free_indices.dropLast }
        (dPage id) (dIdx id) ((some res : Option R), dVer id + 1)) q j = slotAt s q j := by
    intro q j hne
    exact slotAt_setSlot_ne hne
  refine ⟨id, hl, rfl, hslot, hself, ?_, ?_, hpb, hib, rfl, rfl, hother⟩
  · refine ⟨?_, ?_, ?_, ?_, ?_, ?_, ?_⟩
    · show (setSlot _ _ _ _).data.length = s.curr_page + 1
      rw [data_setSlot_length]
      exact inv.hlen
    · exact hpages_setSlot _ _ _ inv.hpages
    · exact inv.hci
    · intro a ham
      have ham2 : a ∈ s.free_indices.dropLast := ham
      rw [hdrop] at ham2
      have hamem : a ∈ s.free_indices := by
        rw [hys]
        exact List.mem_append_left _ ham2
      obtain ⟨hsl, hl2⟩ := inv.hfree a hamem
      have hnc : ¬(dPage a = dPage id ∧ dIdx a = dIdx id) := by
        intro hc
        exact hcross a ham2 (by rw [hc.1, hc.2])
      exact ⟨(hother _ _ hnc).trans hsl, hl2⟩
    · show List.Pairwise _ s.free_indices.dropLast
      rw [hdrop]
      have hpw := inv.hfreeinj
      rw [hys] at hpw
      exact (List.pairwise_append.mp hpw).1
    · intro p i x v hs
      by_cases hpi : p = dPage id ∧ i = dIdx id
      · obtain ⟨hp, hi⟩ := hpi
        subst hp; subst hi
        rw [hself] at hs
        cases hs
        have := dVer_lt id
        omega
      · rw [hother p i hpi] at hs
        exact inv.hver p i x v hs
    · intro i hgei hlti
      have hgei2 : s.curr_index ≤ i := hgei
      have hnc : ¬(s.curr_page = dPage id ∧ i = dIdx id) := by
        rintro ⟨hp, hi⟩
        rcases hlt with hl1 | ⟨hl2, hl3⟩
        · omega
        · omega
      exact (hother _ _ hnc).trans (inv.htail i hgei2 hlti)
  · show (setSlot _ _ _ _).data.length = s.data.length
    exact data_setSlot_length ..

theorem delete_none {R : Type} {s : PoolState R} {id : Nat}
    (h : slotAt s (dPage id) (dIdx id) = none) :
    delete s id = (.error .oob, s) := by
  unfold delete
  rw [h]

theorem delete_empty_eq {R : Type} {s : PoolState R} {id : Nat} {w : Nat}
    (h : slotAt s (dPage id) (dIdx id) = some (none, w)) :
    delete s id = (.error .invalid, setSlot s (dPage id) (dIdx id) (none, w)) := by
  unfold delete
  rw [h]

theorem delete_mismatch_eq {R : Type} {s : PoolState R} {id : Nat} {r : R} {w : Nat}
    (h : slotAt s (dPage id) (dIdx id) = some (some r, w)) (hne : w ≠ dVer id) :
    delete s id = (.error .invalid, setSlot s (dPage id) (dIdx id) (none, w)) := by
  unfold delete
  rw [h]
  simp only [if_neg hne]

theorem delete_ok_eq {R : Type} {s : PoolState R} {id : Nat} {r : R}
    (h : slotAt s (dPage id) (dIdx id) = some (some r, dVer id)) :
    delete s id = (.ok r,
      { setSlot (setSlot s (dPage id) (dIdx id) (none, dVer id)) (dPage id) (dIdx id)
          (none, dVer id) with
        free_indices := s.free_indices ++ [id] }) := by
  unfold delete
  rw [h]
  show (if dVer id = dVer id then
      ((Except.ok r : Except PoolErr R),
        { setSlot (setSlot s (dPage id) (dIdx id) (none, dVer id)) (dPage id) (dIdx id)
            (none, dVer id) with
          free_indices :=
            (setSlot s (dPage id) (dIdx id) (none, dVer id)).free_indices ++ [id] })
    else ((Except.error PoolErr.invalid : Except PoolErr R),
      setSlot s (dPage id) (dIdx id) (none, dVer id))) = _
  rw [if_pos rfl]
  rfl

/-- Inversion of a successful `delete`: the addressed slot held the returned
resource at exactly the decoded version, and the result state empties the
slot (keeping the version) and appends the handle to the free list. -/
theorem delete_ok_inversion {R : Type} {s s1 : PoolState R} {id : Nat} {r : R}
    (h : delete s id = (.ok r, s1)) :
    slotAt s (dPage id) (dIdx id) = some (some r, dVer id) ∧
    slotAt s1 (dPage id) (dIdx id) = some (none, dVer id) ∧
    s1.free_indices = s.free_indices ++ [id] ∧
    s1.curr_page = s.curr_page ∧ s1.curr_index = s.curr_index ∧
    s1.data.length = s.data.length ∧
    s1.data = (setSlot (setSlot s (dPage id) (dIdx id) (none, dVer id)) (dPage id) (dIdx id)
      (none, dVer id)).data ∧
    (∀ q j, ¬(q = dPage id ∧ j = dIdx id) → slotAt s1 q j = slotAt s q j) := by
  match hs : slotAt s (dPage id) (dIdx id) with
  | none =>
    rw [delete_none hs] at h
    exact absurd (congrArg Prod.fst h) (by simp)
  | some (none, w) =>
    rw [delete_empty_eq hs] at h
    exact absurd (congrArg Prod.fst h) (by simp)
  | some (some r2, w) =>
    by_cases hv : w = dVer id
    · have hs2 : slotAt s (dPage id) (dIdx id) = some (some r2, dVer id) := by
        rw [hs, hv]
      rw [delete_ok_eq hs2] at h
      have hr : r2 = r := by
        have := congrArg Prod.fst h
        simpa using this
      have hst := congrArg Prod.snd h
      simp only at hst
      subst hst
      have hmid : slotAt (setSlot s (dPage id) (dIdx id) ((none : Option R), dVer id))
          (dPage id) (dIdx id) = some (none, dVer id) := slotAt_setSlot_self _ hs2
      refine ⟨by rw [hr, hv], ?_, rfl, rfl, rfl, ?_, rfl, ?_⟩
      · show slotAt (setSlot (setSlot s (dPage id) (dIdx id) (none, dVer id)) (dPage id)
          (dIdx id) (none, dVer id)) (dPage id) (dIdx id) = some (none, dVer id)
        exact slotAt_setSlot_self _ hmid
      · show (setSlot (setSlot s _ _ _) _ _ _).data.length = s.data.length
        rw [data_setSlot_length, data_setSlot_length]
      · intro q j hne
        show slotAt (setSlot (setSlot s (dPage id) (dIdx id) (none, dVer id)) (dPage id)
          (dIdx id) (none, dVer id)) q j = slotAt s q j
        rw [slotAt_setSlot_ne hne, slotAt_setSlot_ne hne]
    · rw [delete_mismatch_eq hs hv] at h
      exact absurd (congrArg Prod.fst h) (by simp)

theorem inv_setSlot_same {R : Type} {s : PoolState R} (inv : PoolInv s) {p i : Nat}
    {x : Slot R} (hs : slotAt s p i = some x) : PoolInv (setSlot s p i x) := by
  have hsame := slotAt_setSlot_same hs
  refine ⟨?_, hpages_setSlot _ _ _ inv.hpages, inv.hci, ?_, inv.hfreeinj, ?_, ?_⟩
  · show (setSlot s p i x).data.length = s.curr_page + 1
    rw [data_setSlot_length]
    exact inv.hlen
  · intro a ham
    obtain ⟨hsl, hl2⟩ := inv.hfree a ham
    exact ⟨(hsame _ _).trans hsl, hl2⟩
  · intro q j y v hpv
    rw [hsame q j] at hpv
    exact inv.hver q j y v hpv
  · intro j hge hlt
    exact (hsame _ _).trans (inv.htail j hge hlt)

/-- Emptying an occupied slot (keeping its version) preserves the
invariant; this covers both the version-mismatch failure path and the
take-then-panic path of `delete`. -/
theorem inv_empty_occupied {R : Type} {s : PoolState R} (inv : PoolInv s) {P I w : Nat}
    {r : R} (hs : slotAt s P I = some (some r, w)) :
    PoolInv (setSlot s P I (none, w)) := by
  have hself : slotAt (setSlot s P I ((none : Option R), w)) P I
      = some ((none : Option R), w) := slotAt_setSlot_self _ hs
  refine ⟨?_, hpages_setSlot _ _ _ inv.hpages, inv.hci, ?_, inv.hfreeinj, ?_, ?_⟩
  · show (setSlot s P I _).data.length = s.curr_page + 1
    rw [data_setSlot_length]
    exact inv.hlen
  · intro a ham
    obtain ⟨hsl, hl2⟩ := inv.hfree a ham
    have hnc : ¬(dPage a = P ∧ dIdx a = I) := by
      rintro ⟨h1, h2⟩
      rw [h1, h2] at hsl
      exact absurd (hsl.symm.trans hs) (by simp)
    exact ⟨(slotAt_setSlot_ne hnc).trans hsl, hl2⟩
  · intro p i x v hpv
    by_cases hpi : p = P ∧ i = I
    · obtain ⟨h1, h2⟩ := hpi
      subst h1; subst h2
      rw [hself] at hpv
      cases hpv
      exact inv.hver _ _ _ _ hs
    · rw [slotAt_setSlot_ne hpi] at hpv
      exact inv.hver _ _ _ _ hpv
  · intro i hge hlt
    have hnc : ¬(s.curr_page = P ∧ i = I) := by
      rintro ⟨h1, h2⟩
      have ht := inv.htail i hge hlt
      rw [h1, h2] at ht
      exact absurd (ht.symm.trans hs) (by simp)
    exact (slotAt_setSlot_ne hnc).trans (inv.htail i hge hlt)

theorem inv_delete_ok {R : Type} {s s1 : PoolState R} {id : Nat} {r : R}
    (inv : PoolInv s) (h : delete s id = (.ok r, s1)) : PoolInv s1 := by
  obtain ⟨hs, hself, hfr, hcp, hci2, hdl, hdata, hother⟩ := delete_ok_inversion h
  have hfresh_ne : ∀ a ∈ s.free_indices, (dPage a, dIdx a) ≠ (dPage id, dIdx id) := by
    intro a ham hc
    obtain ⟨hsl, -⟩ := inv.hfree a ham
    have h1 : dPage a = dPage id := congrArg Prod.fst hc
    have h2 : dIdx a = dIdx id := congrArg Prod.snd hc
    rw [h1, h2] at hsl
    exact absurd (hsl.symm.trans hs) (by simp)
  refine ⟨?_, ?_, ?_, ?_, ?_, ?_, ?_⟩
  · rw [hdl, hcp]
    exact inv.hlen
  · rw [hdata]
    exact hpages_setSlot _ _ _ (hpages_setSlot _ _ _ inv.hpages)
  · rw [hci2]
    exact inv.hci
  · intro a ham
    rw [hfr] at ham
    rcases List.mem_append.mp ham with hold | hnew
    · obtain ⟨hsl, hl2⟩ := inv.hfree a hold
      have hnc : ¬(dPage a = dPage id ∧ dIdx a = dIdx id) := by
        rintro ⟨h1, h2⟩
        exact hfresh_ne a hold (by rw [h1, h2])
      refine ⟨(hother _ _ hnc).trans hsl, ?_⟩
      rw [hcp, hci2]
      exact hl2
    · rw [List.mem_singleton.mp hnew]
      refine ⟨hself, ?_⟩
      rw [hcp, hci2]
      exact occupied_slotLt inv hs
  · rw [hfr]
    rw [List.pairwise_append]
    refine ⟨inv.hfreeinj, List.pairwise_singleton _ _, ?_⟩
    intro a ha b hb
    rw [List.mem_singleton.mp hb]
    exact hfresh_ne a ha
  · intro p i x v hpv
    by_cases hpi : p = dPage id ∧ i = dIdx id
    · obtain ⟨h1, h2⟩ := hpi
      subst h1; subst h2
      rw [hself] at hpv
      cases hpv
      exact Nat.le_of_lt (dVer_lt id)
    · rw [hother p i hpi] at hpv
      exact inv.hver p i x v hpv
  · intro i hge hlt
    rw [hci2] at hge
    rw [hcp]
    have hnc : ¬(s.curr_page = dPage id ∧ i = dIdx id) := by
      rintro ⟨h1, h2⟩
      have ht := inv.htail i hge hlt
      rw [h1, h2] at ht
      exact absurd (ht.symm.trans hs) (by simp)
    exact (hother _ _ hnc).trans (inv.htail i hge hlt)

/-- `delete` preserves the invariant on every path (including failures). -/
theorem inv_delete {R : Type} {s : PoolState R} (inv : PoolInv s) (id : Nat) :
    PoolInv (delete s id).2 := by
  match hs : slotAt s (dPage id) (dIdx id) with
  | none =>
    rw [delete_none hs]
    exact inv
  | some (none, w) =>
    rw [delete_empty_eq hs]
    exact inv_setSlot_same inv hs
  | some (some r, w) =>
    by_cases hv : w = dVer id
    · have hs2 : slotAt s (dPage id) (dIdx id) = some (some r, dVer id) := by rw [hs, hv]
      rw [delete_ok_eq hs2]
      exact inv_delete_ok inv (delete_ok_eq hs2)
    · rw [delete_mismatch_eq hs hv]
      exact inv_empty_occupied inv hs

/-- `add` preserves the invariant and never shrinks the page table. -/
theorem inv_add {R : Type} {s : PoolState R} (inv : PoolInv s) (res : R) :
    PoolInv (add s res).2 ∧ s.data.length ≤ (add s res).2.data.length := by
  by_cases hfe : s.free_indices = []
  · obtain ⟨-, -, -, hinv, hlen2, -, -, hmono, -, -⟩ := add_fresh_spec inv hfe res
    exact ⟨hinv, by omega⟩
  · obtain ⟨id, -, -, -, -, hinv, hlen2, -⟩ := add_reuse_spec inv hfe res
    exact ⟨hinv, by omega⟩

theorem delete_data_length {R : Type} (s : PoolState R) (id : Nat) :
    (delete s id).2.data.length = s.data.length := by
  match hs : slotAt s (dPage id) (dIdx id) with
  | none =>
    rw [delete_none hs]
  | some (none, w) =>
    rw [delete_empty_eq hs]
    exact data_setSlot_length ..
  | some (some r, w) =>
    by_cases hv : w = dVer id
    · have hs2 : slotAt s (dPage id) (dIdx id) = some (some r, dVer id) := by rw [hs, hv]
      rw [delete_ok_eq hs2]
      show (setSlot (setSlot s (dPage id) (dIdx id) (none, dVer id)) (dPage id) (dIdx id)
        (none, dVer id)).data.length = s.data.length
      rw [data_setSlot_length, data_setSlot_length]
    · rw [delete_mismatch_eq hs hv]
      exact data_setSlot_length ..

/-- One operation preserves the invariant and never shrinks the page
table. -/
theorem inv_runOp {R : Type} {s : PoolState R} (inv : PoolInv s) (o : PoolOp R) :
    PoolInv (runOp s o) ∧ s.data.length ≤ (runOp s o).data.length := by
  cases o with
  | addOp r => exact inv_add inv r
  | delOp id =>
    refine ⟨inv_delete inv id, ?_⟩
    show s.data.length ≤ (delete s id).2.data.length
    rw [delete_data_length]

/-- Operation sequences preserve the invariant and never shrink the page
table. -/
theorem inv_runOps {R : Type} {s : PoolState R} (inv : PoolInv s) (ops : List (PoolOp R)) :
    PoolInv (runOps s ops) ∧ s.data.length ≤ (runOps s ops).data.length := by
  induction ops generalizing s with
  | nil => exact ⟨inv, le_rfl⟩
  | cons o rest ih =>
    obtain ⟨inv1, hm1⟩ := inv_runOp inv o
    obtain ⟨inv2, hm2⟩ := ih inv1
    exact ⟨inv2, le_trans hm1 hm2⟩

theorem slotLt_mono {p i cp ci cp2 ci2 : Nat} (h : slotLt p i cp ci)
    (hcp : cp ≤ cp2) (hstep : cp = cp2 → ci ≤ ci2) : slotLt p i cp2 ci2 := by
  rcases h with h1 | ⟨h2, h3⟩
  · exact Or.inl (by omega)
  · rcases Nat.lt_or_ge p cp2 with h4 | h4
    · exact Or.inl h4
    · have : cp = cp2 := by omega
      exact Or.inr ⟨by omega, by have := hstep this; omega⟩

/-- One pool operation cannot make a stale slot valid again: the slot's
version only grows, and an occupant always carries a strictly larger
version than the stale handle. -/
theorem stale_runOp {R : Type} {s : PoolState R} {p i v : Nat} (inv : PoolInv s)
    (hs : StaleSlot s p i v) (o : PoolOp R) : StaleSlot (runOp s o) p i v := by
  obtain ⟨hlt, x, w, hslot, hvw, hocc⟩ := hs
  cases o with
  | addOp r =>
    show StaleSlot (add s r).2 p i v
    by_cases hfe : s.free_indices = []
    · obtain ⟨-, -, -, -, -, hci0, hcp1, -, -, hother⟩ := add_fresh_spec inv hfe r
      obtain ⟨inv0, -, -, -, hsame⟩ := inv_grow inv
      have hplen : p < s.data.length := (slot_page_bound inv.hpages hslot).1
      have hlt0 : slotLt p i (growIfFull s).curr_page (growIfFull s).curr_index := by
        unfold growIfFull at *
        by_cases hful : s.curr_index = PAGE_SIZE
        · rw [if_pos hful] at *
          refine Or.inl ?_
          show p < s.curr_page + 1
          rcases hlt with h1 | ⟨h2, -⟩
          · omega
          · omega
        · rw [if_neg hful] at *
          exact hlt
      have hne : ¬(p = (growIfFull s).curr_page ∧ i = (growIfFull s).curr_index) := by
        rintro ⟨h1, h2⟩
        rcases hlt0 with h3 | ⟨h3, h4⟩
        · omega
        · omega
      refine ⟨?_, x, w, ?_, hvw, hocc⟩
      · have hcur : (add s r).2.curr_page = (growIfFull s).curr_page ∧
            (add s r).2.curr_index = (growIfFull s).curr_index + 1 := by
          rw [add_eq_fresh hfe r]
          exact ⟨rfl, rfl⟩
        rw [hcur.1, hcur.2]
        exact slotLt_mono hlt0 le_rfl (fun _ => by omega)
      · rw [hother p i hne, hsame p i hplen]
        exact hslot
    · obtain ⟨id, -, -, hfree_slot, hnew_slot, -, -, -, -, hcp, hci2, hother⟩ :=
        add_reuse_spec inv hfe r
      by_cases hpi : p = dPage id ∧ i = dIdx id
      · obtain ⟨h1, h2⟩ := hpi
        subst h1; subst h2
        have hw : w = dVer id := by
          rw [hslot] at hfree_slot
          cases hfree_slot
          rfl
        refine ⟨by rw [hcp, hci2]; exact hlt, some r, dVer id + 1, hnew_slot, by omega, ?_⟩
        intro
        omega
      · refine ⟨by rw [hcp, hci2]; exact hlt, x, w, (hother p i hpi).trans hslot, hvw, hocc⟩
  | delOp id =>
    show StaleSlot (delete s id).2 p i v
    match hsd : slotAt s (dPage id) (dIdx id) with
    | none =>
      rw [delete_none hsd]
      exact ⟨hlt, x, w, hslot, hvw, hocc⟩
    | some (none, w2) =>
      rw [delete_empty_eq hsd]
      have hsame := slotAt_setSlot_same hsd
      exact ⟨hlt, x, w, (hsame p i).trans hslot, hvw, hocc⟩
    | some (some r, w2) =>
      by_cases hv2 : w2 = dVer id
      · have hs2 : slotAt s (dPage id) (dIdx id) = some (some r, dVer id) := by rw [hsd, hv2]
        rw [delete_ok_eq hs2]
        obtain ⟨-, hself, -, hcp, hci2, -, -, hother⟩ := delete_ok_inversion (delete_ok_eq hs2)
        by_cases hpi : p = dPage id ∧ i = dIdx id
        · obtain ⟨h1, h2⟩ := hpi
          subst h1; subst h2
          have hw : w = dVer id := by
            rw [hslot] at hs2
            cases hs2
            rfl
          refine ⟨by rw [hcp, hci2]; exact hlt, none, dVer id, hself, by omega, ?_⟩
          intro hc
          exact absurd rfl hc
        · exact ⟨by rw [hcp, hci2]; exact hlt, x, w, (hother p i hpi).trans hslot, hvw, hocc⟩
      · rw [delete_mismatch_eq hsd hv2]
        by_cases hpi : p = dPage id ∧ i = dIdx id
        · obtain ⟨h1, h2⟩ := hpi
          subst h1; subst h2
          have hw : w = w2 := by
            rw [hslot] at hsd
            cases hsd
            rfl
          have hself : slotAt (setSlot s (dPage id) (dIdx id) ((none : Option R), w2))
              (dPage id) (dIdx id) = some ((none : Option R), w2) :=
            slotAt_setSlot_self _ hsd
          refine ⟨hlt, none, w2, hself, by omega, ?_⟩
          intro hc
          exact absurd rfl hc
        · exact ⟨hlt, x, w, (slotAt_setSlot_ne hpi).trans hslot, hvw, hocc⟩

theorem stale_runOps {R : Type} {s : PoolState R} {p i v : Nat} (inv : PoolInv s)
    (hs : StaleSlot s p i v) (ops : List (PoolOp R)) : StaleSlot (runOps s ops) p i v := by
  induction ops generalizing s with
  | nil => exact hs
  | cons o rest ih => exact ih (inv_runOp inv o).1 (stale_runOp inv hs o)

theorem stale_get_ref {R : Type} {s : PoolState R} {h : Nat}
    (hs : StaleSlot s (dPage h) (dIdx h) (dVer h)) :
    get_ref s h = .error .invalid ∧ (delete s h).1 = .error .invalid := by
  obtain ⟨-, x, w, hslot, hvw, hocc⟩ := hs
  cases x with
  | none =>
    constructor
    · unfold get_ref
      rw [hslot]
    · rw [delete_empty_eq hslot]
  | some r =>
    have hlt2 : dVer h < w := hocc (by simp)
    have hne : w ≠ dVer h := by omega
    constructor
    · unfold get_ref
      rw [hslot]
      simp only [if_neg hne]
    · rw [delete_mismatch_eq hslot hne]

/-- C7: once `delete(h)` has succeeded, every later `get_ref(h)` and
`delete(h)` fails with the invalid-handle error, no matter which add and
delete operations happen in between: the slot's version only ever grows
past the stale handle's version field, so the handle can never silently
address a resource that later reuses the slot. -/
theorem c7_stale_handle_rejected {R : Type} (ops0 : List (PoolOp R)) (h : Nat) (r : R)
    (s1 : PoolState R)
    (hdel : delete (runOps (PoolState.new R) ops0) h = (.ok r, s1))
    (ops2 : List (PoolOp R)) :
    get_ref (runOps s1 ops2) h = .error .invalid ∧
    (delete (runOps s1 ops2) h).1 = .error .invalid := by
  have inv0 := (inv_runOps (inv_new R) ops0).1
  obtain ⟨hs, hself, hfr, hcp, hci2, hdl, hdata, hother⟩ := delete_ok_inversion hdel
  have inv1 : PoolInv s1 := by
    have hd := inv_delete inv0 h
    rw [hdel] at hd
    exact hd
  have hstale : StaleSlot s1 (dPage h) (dIdx h) (dVer h) := by
    refine ⟨?_, none, dVer h, hself, le_rfl, fun hc => absurd rfl hc⟩
    rw [hcp, hci2]
    exact occupied_slotLt inv0 hs
  exact stale_get_ref (stale_runOps inv1 hstale ops2)

/-- Witness for C7: add one resource (handle `0`), delete it, add another
resource (which reuses the slot at version `1`); the old handle is
rejected by both accessors. -/
theorem c7_witness :
    get_ref (runOps (⟨[[(none, 0), (none, 0), (none, 0), (none, 0), (none, 0), (none, 0),
        (none, 0), (none, 0), (none, 0), (none, 0)]], [0], 0, 1⟩ : PoolState Nat)
      [.addOp 7]) 0 = .error .invalid ∧
    (delete (runOps (⟨[[(none, 0), (none, 0), (none, 0), (none, 0), (none, 0), (none, 0),
        (none, 0), (none, 0), (none, 0), (none, 0)]], [0], 0, 1⟩ : PoolState Nat)
      [.addOp 7]) 0).1 = .error .invalid :=
  c7_stale_handle_rejected [.addOp 5] 0 5
    (⟨[[(none, 0), (none, 0), (none, 0), (none, 0), (none, 0), (none, 0),
        (none, 0), (none, 0), (none, 0), (none, 0)]], [0], 0, 1⟩ : PoolState Nat)
    (by rfl) [.addOp 7]

theorem dPage_encode {i v : Nat} (p : Nat) (hi : i < 2 ^ 16) (hv : v < 2 ^ 16) :
    dPage (encode p i v) = p % 2 ^ 16 :=
  congrArg (fun t => t.1) (decode_encode p hi hv)

theorem dIdx_encode {i v : Nat} (p : Nat) (hi : i < 2 ^ 16) (hv : v < 2 ^ 16) :
    dIdx (encode p i v) = i :=
  congrArg (fun t => t.2.1) (decode_encode p hi hv)

theorem dVer_encode {i v : Nat} (p : Nat) (hi : i < 2 ^ 16) (hv : v < 2 ^ 16) :
    dVer (encode p i v) = v :=
  congrArg (fun t => t.2.2) (decode_encode p hi hv)

theorem or_one_lt_ten : ∀ i, i < 10 → i ||| 1 < 10 := by decide

/-- Any handle produced by `add` decodes to a page below the page count at
the time of the add and a slot index below `PAGE_SIZE` — even when the
version field has just overflowed into bit 16. -/
theorem add_handle_bounds {R : Type} {s : PoolState R} (inv : PoolInv s) (res : R) :
    dPage (add s res).1 < (add s res).2.data.length ∧ dIdx (add s res).1 < PAGE_SIZE := by
  by_cases hfe : s.free_indices = []
  · obtain ⟨hid, -, -, -, hlen2, hci0, hcp1, -, -, -⟩ := add_fresh_spec inv hfe res
    rw [hid]
    have hci16 : (growIfFull s).curr_index < 2 ^ 16 := by
      unfold PAGE_SIZE at hci0
      omega
    rw [dPage_encode _ hci16 (by norm_num), dIdx_encode _ hci16 (by norm_num)]
    refine ⟨?_, hci0⟩
    rw [hlen2]
    calc (growIfFull s).curr_page % 2 ^ 16 ≤ (growIfFull s).curr_page := Nat.mod_le _ _
      _ < (growIfFull s).data.length := by omega
  · obtain ⟨id, -, hid, -, -, -, hlen2, hpb, hib, -, -, -⟩ := add_reuse_spec inv hfe res
    rw [hid, hlen2]
    have hib16 : dIdx id < 2 ^ 16 := by
      unfold PAGE_SIZE at hib
      omega
    have hv := dVer_lt id
    rcases Nat.lt_or_ge (dVer id + 1) (2 ^ 16) with hsmall | hbig
    · rw [dPage_encode _ hib16 hsmall, dIdx_encode _ hib16 hsmall]
      exact ⟨Nat.lt_of_le_of_lt (Nat.mod_le _ _) hpb, hib⟩
    · have hexact : dVer id + 1 = 2 ^ 16 := by omega
      rw [hexact, encode_overflow]
      have hor10 : dIdx id ||| 1 < 10 := or_one_lt_ten _ hib
      have hor16 : dIdx id ||| 1 < 2 ^ 16 := by
        unfold PAGE_SIZE at *
        omega
      rw [dPage_encode _ hor16 (by norm_num), dIdx_encode _ hor16 (by norm_num)]
      refine ⟨Nat.lt_of_le_of_lt (Nat.mod_le _ _) hpb, ?_⟩
      unfold PAGE_SIZE
      omega

theorem slotAt_isSome_of_bounds {R : Type} {s : PoolState R} (inv : PoolInv s) {p i : Nat}
    (hp : p < s.data.length) (hi : i < PAGE_SIZE) : ∃ y, slotAt s p i = some y := by
  unfold slotAt
  rw [List.getElem?_eq_getElem hp, Option.some_bind]
  have hpgl : (s.data[p]).length = PAGE_SIZE := inv.hpages _ (List.getElem_mem hp)
  rw [List.getElem?_eq_getElem (by omega)]
  exact ⟨_, rfl⟩

theorem not_oob_of_some {R : Type} {s : PoolState R} {h : Nat}
    (hsome : ∃ y, slotAt s (dPage h) (dIdx h) = some y) :
    get_ref s h ≠ .error .oob ∧ (delete s h).1 ≠ .error .oob := by
  obtain ⟨⟨x, w⟩, hy⟩ := hsome
  cases x with
  | none =>
    constructor
    · unfold get_ref
      rw [hy]
      intro hc
      exact PoolErr.noConfusion (Except.error.inj hc)
    · rw [delete_empty_eq hy]
      intro hc
      exact PoolErr.noConfusion (Except.error.inj hc)
  | some r =>
    constructor
    · unfold get_ref
      rw [hy]
      by_cases hveq : w = dVer h
      · simp only [if_pos hveq]
        intro hc
        exact Except.noConfusion hc
      · simp only [if_neg hveq]
        intro hc
        exact PoolErr.noConfusion (Except.error.inj hc)
    · by_cases hveq : w = dVer h
      · have hy2 : slotAt s (dPage h) (dIdx h) = some (some r, dVer h) := by rw [hy, hveq]
        rw [delete_ok_eq hy2]
        intro hc
        exact Except.noConfusion hc
      · rw [delete_mismatch_eq hy hveq]
        intro hc
        exact PoolErr.noConfusion (Except.error.inj hc)

/-- C10: a handle returned by `add` decodes, in every later pool state, to
a page index below the page count and a slot index below `PAGE_SIZE`, so
the slot lookups of `get_ref` and `delete` stay in bounds and the only
failure those calls can raise for such a handle is the invalid-handle
error, never an out-of-bounds access. -/
theorem c10_add_handles_stay_in_bounds {R : Type} (ops0 : List (PoolOp R)) (res : R)
    (ops2 : List (PoolOp R)) :
    dPage (add (runOps (PoolState.new R) ops0) res).1 <
      (runOps (add (runOps (PoolState.new R) ops0) res).2 ops2).data.length ∧
    dIdx (add (runOps (PoolState.new R) ops0) res).1 < PAGE_SIZE ∧
    get_ref (runOps (add (runOps (PoolState.new R) ops0) res).2 ops2)
      (add (runOps (PoolState.new R) ops0) res).1 ≠ .error .oob ∧
    (delete (runOps (add (runOps (PoolState.new R) ops0) res).2 ops2)
      (add (runOps (PoolState.new R) ops0) res).1).1 ≠ .error .oob := by
  have inv0 := (inv_runOps (inv_new R) ops0).1
  obtain ⟨hb1, hb2⟩ := add_handle_bounds inv0 res
  have inv1 := (inv_add inv0 res).1
  obtain ⟨inv2, hmono⟩ := inv_runOps inv1 ops2
  have hp2 : dPage (add (runOps (PoolState.new R) ops0) res).1 <
      (runOps (add (runOps (PoolState.new R) ops0) res).2 ops2).data.length := by
    omega
  obtain ⟨y, hy⟩ := slotAt_isSome_of_bounds inv2 hp2 hb2
  obtain ⟨hg, hd⟩ := not_oob_of_some ⟨y, hy⟩
  exact ⟨hp2, hb2, hg, hd⟩

/-- Witness for C10: the first handle of a fresh pool, checked after a
second add. -/
theorem c10_witness :
    dPage (add (runOps (PoolState.new Nat) []) 5).1 <
      (runOps (add (runOps (PoolState.new Nat) []) 5).2 [.addOp 7]).data.length ∧
    dIdx (add (runOps (PoolState.new Nat) []) 5).1 < PAGE_SIZE ∧
    get_ref (runOps (add (runOps (PoolState.new Nat) []) 5).2 [.addOp 7])
      (add (runOps (PoolState.new Nat) []) 5).1 ≠ .error .oob ∧
    (delete (runOps (add (runOps (PoolState.new Nat) []) 5).2 [.addOp 7])
      (add (runOps (PoolState.new Nat) []) 5).1).1 ≠ .error .oob :=
  c10_add_handles_stay_in_bounds [] 5 [.addOp 7]

/-- C8: the version lifecycle of a slot.  A fresh-path `add` places the
resource in a never-used slot (stored version `0`, handle version field
`0`); a reuse-path `add` stores and returns the freed slot's previous
version incremented by one; and a successful `delete` empties the slot
keeping its version unchanged, appending the handle to the free list —
versions grow only at reuse after deletion, never at first occupation. -/
theorem c8_version_lifecycle {R : Type} (ops : List (PoolOp R)) (res : R) (id : Nat) :
    ((runOps (PoolState.new R) ops).free_indices = [] →
      ∃ p i, slotAt (growIfFull (runOps (PoolState.new R) ops)) p i = some (none, 0) ∧
        (add (runOps (PoolState.new R) ops) res).1 = encode p i 0 ∧
        slotAt (add (runOps (PoolState.new R) ops) res).2 p i = some (some res, 0)) ∧
    ((runOps (PoolState.new R) ops).free_indices ≠ [] →
      ∃ p i v, slotAt (runOps (PoolState.new R) ops) p i = some (none, v) ∧
        (add (runOps (PoolState.new R) ops) res).1 = encode p i (v + 1) ∧
        slotAt (add (runOps (PoolState.new R) ops) res).2 p i = some (some res, v + 1)) ∧
    (∀ r s1, delete (runOps (PoolState.new R) ops) id = (.ok r, s1) →
      ∃ p i v, slotAt (runOps (PoolState.new R) ops) p i = some (some r, v) ∧
        slotAt s1 p i = some (none, v) ∧
        s1.free_indices = (runOps (PoolState.new R) ops).free_indices ++ [id]) := by
  have inv0 := (inv_runOps (inv_new R) ops).1
  refine ⟨?_, ?_, ?_⟩
  · intro hfe
    obtain ⟨hid, hblank, hstored, -, -, -, -, -, -, -⟩ := add_fresh_spec inv0 hfe res
    exact ⟨_, _, hblank, hid, hstored⟩
  · intro hfe
    obtain ⟨id2, -, hid, hfreed, hstored, -, -, -, -, -, -, -⟩ := add_reuse_spec inv0 hfe res
    exact ⟨dPage id2, dIdx id2, dVer id2, hfreed, hid, hstored⟩
  · intro r s1 hdel
    obtain ⟨hs, hself, hfr, -, -, -, -, -⟩ := delete_ok_inversion hdel
    exact ⟨dPage id, dIdx id, dVer id, hs, hself, hfr⟩

/-- Witness for C8: fresh add on the empty pool, reuse add after a delete,
and a successful delete, all on concrete pools. -/
theorem c8_witness :
    (∃ p i, slotAt (growIfFull (runOps (PoolState.new Nat) [])) p i = some (none, 0) ∧
      (add (runOps (PoolState.new Nat) []) 5).1 = encode p i 0 ∧
      slotAt (add (runOps (PoolState.new Nat) []) 5).2 p i = some (some 5, 0)) ∧
    (∃ p i v, slotAt (runOps (PoolState.new Nat) [.addOp 9, .delOp 0]) p i = some (none, v) ∧
      (add (runOps (PoolState.new Nat) [.addOp 9, .delOp 0]) 7).1 = encode p i (v + 1) ∧
      slotAt (add (runOps (PoolState.new Nat) [.addOp 9, .delOp 0]) 7).2 p i =
        some (some 7, v + 1)) ∧
    (∃ p i v, slotAt (runOps (PoolState.new Nat) [.addOp 9]) p i = some (some 9, v) ∧
      slotAt (⟨[[(none, 0), (none, 0), (none, 0), (none, 0), (none, 0), (none, 0), (none, 0),
          (none, 0), (none, 0), (none, 0)]], [0], 0, 1⟩ : PoolState Nat) p i = some (none, v) ∧
      (⟨[[(none, 0), (none, 0), (none, 0), (none, 0), (none, 0), (none, 0), (none, 0),
          (none, 0), (none, 0), (none, 0)]], [0], 0, 1⟩ : PoolState Nat).free_indices =
        (runOps (PoolState.new Nat) [.addOp 9]).free_indices ++ [0]) :=
  ⟨(c8_version_lifecycle [] 5 0).1 (by decide),
   (c8_version_lifecycle [.addOp 9, .delOp 0] 7 0).2.1 (by decide),
   (c8_version_lifecycle [.addOp 9] 5 0).2.2 9
     (⟨[[(none, 0), (none, 0), (none, 0), (none, 0), (none, 0), (none, 0), (none, 0),
         (none, 0), (none, 0), (none, 0)]], [0], 0, 1⟩ : PoolState Nat) (by rfl)⟩

theorem versionsOk_spec {R : Type} {s : PoolState R} (h : versionsOk s = true) :
    ∀ p i x v, slotAt s p i = some (x, v) → v < 2 ^ 16 := by
  intro p i x v hs
  obtain ⟨hp, pg, hpg, hi, hival⟩ := slotAt_some_bounds hs
  unfold versionsOk at h
  rw [List.all_eq_true] at h
  have h2 := h pg (List.getElem?_mem hpg)
  rw [List.all_eq_true] at h2
  have h3 := h2 (x, v) (List.getElem?_mem hival)
  simpa using h3

theorem liveF_eq_some {R : Type} (s : PoolState R) (p i c : Nat) :
    (match slotAt s p i with
      | some (some _, v) => some (encode p i v)
      | _ => none) = some c ↔
    ∃ r v, slotAt s p i = some (some r, v) ∧ c = encode p i v := by
  rcases hs : slotAt s p i with _ | ⟨_ | r, v⟩
  · simp
  · simp
  · constructor
    · intro hc
      exact ⟨r, v, rfl, (Option.some.inj hc).symm⟩
    · rintro ⟨r2, v2, hrv, hc⟩
      obtain ⟨h1, h2⟩ := Prod.mk.injEq .. ▸ Option.some.inj hrv
      subst hc
      rw [h2]

/-- C6 (amended): as long as no slot's version stamp has reached `2^16`
and the pool has at most `2^32` pages, the handles of all currently live
resources are pairwise distinct. -/
theorem c6_live_handles_distinct {R : Type} (ops : List (PoolOp R))
    (hver : versionsOk (runOps (PoolState.new R) ops) = true)
    (hpg : (runOps (PoolState.new R) ops).data.length ≤ 2 ^ 32) :
    (liveHandles (runOps (PoolState.new R) ops)).Pairwise (· ≠ ·) := by
  have inv := (inv_runOps (inv_new R) ops).1
  have hv := versionsOk_spec hver
  unfold liveHandles
  show List.Nodup _
  rw [List.nodup_flatten]
  constructor
  · intro l hl
    rw [List.mem_map] at hl
    obtain ⟨p, hp, hleq⟩ := hl
    rw [List.mem_range] at hp
    subst hleq
    refine List.Nodup.filterMap ?_ (List.nodup_range _)
    intro a b c hca hcb
    rw [Option.mem_def, liveF_eq_some] at hca hcb
    obtain ⟨ra, va, hsa, hc_a⟩ := hca
    obtain ⟨rb, vb, hsb, hc_b⟩ := hcb
    have hia : a < PAGE_SIZE := (slot_page_bound inv.hpages hsa).2
    have hib : b < PAGE_SIZE := (slot_page_bound inv.hpages hsb).2
    have henc : encode p a va = encode p b vb := by rw [← hc_a, ← hc_b]
    have := encode_inj (by omega) (by omega)
      (by unfold PAGE_SIZE at hia; omega) (by unfold PAGE_SIZE at hib; omega)
      (hv _ _ _ _ hsa) (hv _ _ _ _ hsb) henc
    exact this.2.1
  · rw [List.pairwise_map]
    have hpw : ((List.range (runOps (PoolState.new R) ops).data.length).Pairwise
        fun p q => p < q ∧ q < (runOps (PoolState.new R) ops).data.length) := by
      refine List.Pairwise.imp_of_mem ?_ (List.pairwise_lt_range _)
      intro a b ha hb hab
      rw [List.mem_range] at hb
      exact ⟨hab, hb⟩
    refine hpw.imp ?_
    intro p q hpq c hcp hcq
    rw [List.mem_filterMap] at hcp hcq
    obtain ⟨a, ha, hfa⟩ := hcp
    obtain ⟨b, hb, hfb⟩ := hcq
    rw [liveF_eq_some] at hfa hfb
    obtain ⟨ra, va, hsa, hc_a⟩ := hfa
    obtain ⟨rb, vb, hsb, hc_b⟩ := hfb
    have hia : a < PAGE_SIZE := (slot_page_bound inv.hpages hsa).2
    have hib : b < PAGE_SIZE := (slot_page_bound inv.hpages hsb).2
    have henc : encode p a va = encode q b vb := by rw [← hc_a, ← hc_b]
    have := encode_inj (by omega) (by omega)
      (by unfold PAGE_SIZE at hia; omega) (by unfold PAGE_SIZE at hib; omega)
      (hv _ _ _ _ hsa) (hv _ _ _ _ hsb) henc
    omega

/-- Witness for the amended C6 on a pool with two live resources. -/
theorem c6_witness :
    versionsOk (runOps (PoolState.new Nat) [.addOp 1, .addOp 2]) = true ∧
    (runOps (PoolState.new Nat) [.addOp 1, .addOp 2]).data.length ≤ 2 ^ 32 ∧
    (liveHandles (runOps (PoolState.new Nat) [.addOp 1, .addOp 2])).Pairwise (· ≠ ·) :=
  ⟨by decide, by decide,
    c6_live_handles_distinct [.addOp 1, .addOp 2] (by decide) (by decide)⟩

theorem runOps_append {R : Type} (s : PoolState R) (l1 l2 : List (PoolOp R)) :
    runOps s (l1 ++ l2) = runOps (runOps s l1) l2 :=
  List.foldl_append ..

theorem cycleOps_succ (k : Nat) :
    cycleOps (k + 1) = cycleOps k ++ [PoolOp.delOp (encode 0 0 k), PoolOp.addOp 300] := by
  unfold cycleOps
  rw [List.range_succ, List.flatMap_append]
  simp

theorem encode_zero_zero (k : Nat) (hk : k < 2 ^ 16) : encode 0 0 k = k := by
  unfold encode U64
  rw [Nat.zero_shiftLeft, Nat.zero_shiftLeft, Nat.zero_or, Nat.zero_or]
  have : (2 : Nat) ^ 64 = 18446744073709551616 := by norm_num
  rw [this] at *
  have h16 : (2 : Nat) ^ 16 = 65536 := by norm_num
  rw [h16] at hk
  omega

theorem decode_small (k : Nat) (hk : k < 2 ^ 16) :
    dPage k = 0 ∧ dIdx k = 0 ∧ dVer k = k := by
  have h := @decode_encode 0 k 0 (by norm_num) hk
  rw [encode_zero_zero k hk] at h
  refine ⟨?_, ?_, ?_⟩
  · have := congrArg (fun t => t.1) h
    simpa using this
  · have := congrArg (fun t => t.2.1) h
    simpa using this
  · have := congrArg (fun t => t.2.2) h
    simpa using this

theorem cyc_step (k : Nat) (hk : k < 65536) :
    runOps (cycState k) [PoolOp.delOp (encode 0 0 k), PoolOp.addOp 300] = cycState (k + 1) := by
  have hk16 : k < 2 ^ 16 := by
    have h16 : (2 : Nat) ^ 16 = 65536 := by norm_num
    omega
  obtain ⟨hdp, hdi, hdv⟩ := decode_small k hk16
  have henc := encode_zero_zero k hk16
  show runOp (runOp (cycState k) (PoolOp.delOp (encode 0 0 k))) (PoolOp.addOp 300) =
    cycState (k + 1)
  rw [henc]
  have hslot : slotAt (cycState k) (dPage k) (dIdx k) =
      some (some (if k = 0 then 100 else 300), dVer k) := by
    rw [hdp, hdi, hdv]
    rfl
  have hdel : (delete (cycState k) k).2 =
      (⟨[[(none, k), (some 200, 0), (none, 0), (none, 0), (none, 0), (none, 0), (none, 0),
          (none, 0), (none, 0), (none, 0)]], [k], 0, 2⟩ : PoolState Nat) := by
    rw [delete_ok_eq hslot, hdp, hdi, hdv]
    unfold cycState setSlot
    simp [List.set]
  show (add (delete (cycState k) k).2 (300 : Nat)).2 = cycState (k + 1)
  rw [hdel, @add_eq_reuse Nat (⟨[[(none, k), (some 200, 0), (none, 0), (none, 0), (none, 0),
    (none, 0), (none, 0), (none, 0), (none, 0), (none, 0)]], [k], 0, 2⟩ : PoolState Nat) k
    (by rfl) 300, hdp, hdi, hdv]
  unfold cycState setSlot
  simp [List.set, Nat.succ_ne_zero]

theorem cyc_reach : ∀ k, k ≤ 65536 →
    runOps (PoolState.new Nat) (PoolOp.addOp 100 :: PoolOp.addOp 200 :: cycleOps k) =
      cycState k := by
  intro k
  induction k with
  | zero =>
    intro _
    decide
  | succ k ih =>
    intro hk
    rw [cycleOps_succ]
    rw [show PoolOp.addOp 100 :: PoolOp.addOp 200 ::
        (cycleOps k ++ [PoolOp.delOp (encode 0 0 k), PoolOp.addOp 300]) =
        (PoolOp.addOp 100 :: PoolOp.addOp 200 :: cycleOps k) ++
        [PoolOp.delOp (encode 0 0 k), PoolOp.addOp 300] from rfl]
    rw [runOps_append, ih (by omega)]
    exact cyc_step k (by omega)

/-- Counterexample for C6 as stated: after `2^16` delete/re-add cycles of
slot `(0,0)` the version field overflows into the index field, and the two
live resources (slots `(0,0)` and `(0,1)`) carry the same 64-bit handle
value `0x10000`. -/
theorem c6_counterexample :
    ¬ (liveHandles (runOps (PoolState.new Nat) overflowOps)).Pairwise (· ≠ ·) := by
  have h := cyc_reach 65536 le_rfl
  unfold overflowOps
  rw [h]
  decide

end Pool

namespace TaskGraph

theorem getD_set_row {adj : List (List Nat)} {u : Nat} {row : List Nat} (j : Nat) :
    (adj.set u row).getD j [] =
      if u = j ∧ u < adj.length then row else adj.getD j [] := by
  rw [List.getD_eq_getElem?_getD, List.getElem?_set]
  by_cases h : u = j
  · subst h
    by_cases h2 : u < adj.length
    · simp [h2]
    · rw [if_pos rfl, if_neg h2, if_neg (fun hc => h2 hc.2),
        List.getD_eq_getElem?_getD, List.getElem?_eq_none (by omega)]
  · simp only [if_neg h]
    rw [List.getD_eq_getElem?_getD]
    rw [if_neg (by tauto)]

theorem edgeRel_removeEdge {adj : List (List Nat)} {u v a b : Nat} :
    edgeRel (removeEdge adj u v) a b ↔ edgeRel adj a b ∧ ¬(a = u ∧ b = v) := by
  unfold edgeRel removeEdge
  rw [getD_set_row]
  by_cases h : u = a ∧ u < adj.length
  · obtain ⟨h1, h2⟩ := h
    subst h1
    rw [if_pos ⟨rfl, h2⟩, List.mem_filter]
    simp only [ne_eq, decide_not, Bool.not_eq_eq_eq_not, Bool.not_true, decide_eq_false_iff_not]
    constructor
    · rintro ⟨hm, hne⟩
      exact ⟨hm, by tauto⟩
    · rintro ⟨hm, hne⟩
      exact ⟨hm, by tauto⟩
  · rw [if_neg h]
    constructor
    · intro hm
      refine ⟨hm, ?_⟩
      rintro ⟨h1, h2⟩
      subst h1
      have hOOB : adj.length ≤ a := by
        rcases Nat.lt_or_ge a adj.length with hx | hx
        · exact absurd ⟨rfl, hx⟩ h
        · exact hx
      rw [List.getD_eq_getElem?_getD, List.getElem?_eq_none hOOB] at hm
      exact absurd hm (List.not_mem_nil b)
    · rintro ⟨hm, -⟩
      exact hm

theorem edgeRel_pushEdge {adj : List (List Nat)} {u v a b : Nat} :
    edgeRel (pushEdge adj u v) a b ↔
      edgeRel adj a b ∨ (a = u ∧ b = v ∧ u < adj.length) := by
  unfold edgeRel pushEdge
  rw [getD_set_row]
  by_cases h : u = a ∧ u < adj.length
  · obtain ⟨h1, h2⟩ := h
    subst h1
    rw [if_pos ⟨rfl, h2⟩, List.mem_append, List.mem_singleton]
    tauto
  · rw [if_neg h]
    constructor
    · exact Or.inl
    · rintro (hm | ⟨h1, h2, h3⟩)
      · exact hm
      · subst h1
        exact absurd ⟨rfl, h3⟩ h

theorem dfsFuel_sound {adj : List (List Nat)} {v u : Nat} :
    ∀ (fuel : Nat) (visited : List Bool) (stack : List Nat),
      (∀ x ∈ stack, Reach adj u x) → dfsFuel adj v fuel visited stack = true →
      Reach adj u v := by
  intro fuel
  induction fuel with
  | zero =>
    intro visited stack hstack h
    exact absurd h (by simp [dfsFuel])
  | succ fuel ih =>
    intro visited stack hstack h
    match stack with
    | [] => exact absurd h (by simp [dfsFuel])
    | node :: rest =>
      by_cases hnv : node = v
      · exact hnv ▸ hstack node (List.mem_cons_self node rest)
      · rw [dfsFuel, if_neg hnv] at h
        by_cases hvis : visited.getD node false
        · rw [if_pos hvis] at h
          exact ih visited rest (fun x hx => hstack x (List.mem_cons_of_mem node hx)) h
        · rw [if_neg hvis] at h
          refine ih (visited.set node true) ((adj.getD node []).reverse ++ rest) ?_ h
          intro x hx
          rcases List.mem_append.mp hx with hx1 | hx2
          · rw [List.mem_reverse] at hx1
            exact Relation.ReflTransGen.tail (hstack node (List.mem_cons_self node rest)) hx1
          · exact hstack x (List.mem_cons_of_mem node hx2)

theorem is_reachable_sound {adj : List (List Nat)} {u v : Nat}
    (h : is_reachable adj u v = true) : Reach adj u v := by
  refine dfsFuel_sound _ _ [u] ?_ h
  intro x hx
  rw [List.mem_singleton.mp hx]
  exact Relation.ReflTransGen.refl

theorem reach_mono {adj1 adj2 : List (List Nat)}
    (h : ∀ a b, edgeRel adj1 a b → edgeRel adj2 a b) {a b : Nat}
    (hr : Reach adj1 a b) : Reach adj2 a b :=
  Relation.ReflTransGen.mono (fun x y => h x y) hr

theorem reach_of_removed {adj : List (List Nat)} {u v : Nat}
    (hreach : Reach (removeEdge adj u v) u v) {a b : Nat} (h : Reach adj a b) :
    Reach (removeEdge adj u v) a b := by
  induction h with
  | refl => exact Relation.ReflTransGen.refl
  | tail hab hbc ih =>
    rename_i x y
    by_cases hxy : x = u ∧ y = v
    · obtain ⟨h1, h2⟩ := hxy
      subst h1; subst h2
      exact Relation.ReflTransGen.trans ih hreach
    · exact Relation.ReflTransGen.tail ih (edgeRel_removeEdge.mpr ⟨hbc, hxy⟩)

theorem reduceStep_length (adj : List (List Nat)) (u v : Nat) :
    (reduceStep adj u v).length = adj.length := by
  unfold reduceStep removeEdge pushEdge
  by_cases h : is_reachable (adj.set u ((adj.getD u []).filter fun x => x ≠ v)) u v
  · rw [if_pos h, List.length_set]
  · rw [if_neg h, List.length_set, List.length_set]

theorem reduceStep_subset {adj : List (List Nat)} {u v : Nat}
    (hv : v ∈ adj.getD u []) {a b : Nat} (h : edgeRel (reduceStep adj u v) a b) :
    edgeRel adj a b := by
  unfold reduceStep at h
  by_cases hr : is_reachable (removeEdge adj u v) u v
  · rw [if_pos hr] at h
    exact (edgeRel_removeEdge.mp h).1
  · rw [if_neg hr] at h
    have hlen : (removeEdge adj u v).length = adj.length := List.length_set ..
    rcases edgeRel_pushEdge.mp h with h1 | ⟨h1, h2, h3⟩
    · exact (edgeRel_removeEdge.mp h1).1
    · subst h1; subst h2
      exact hv

theorem reduceStep_reach {adj : List (List Nat)} {u v : Nat}
    (hv : v ∈ adj.getD u []) (a b : Nat) :
    (Reach adj a b ↔ Reach (reduceStep adj u v) a b) := by
  have hulen : u < adj.length := by
    by_contra hc
    rw [List.getD_eq_getElem?_getD, List.getElem?_eq_none (by omega)] at hv
    exact absurd hv (List.not_mem_nil v)
  unfold reduceStep
  by_cases hr : is_reachable (removeEdge adj u v) u v
  · rw [if_pos hr]
    constructor
    · exact reach_of_removed (is_reachable_sound hr)
    · exact reach_mono (fun x y hxy => (edgeRel_removeEdge.mp hxy).1)
  · rw [if_neg hr]
    have hpt : ∀ x y, edgeRel (pushEdge (removeEdge adj u v) u v) x y ↔ edgeRel adj x y := by
      intro x y
      rw [edgeRel_pushEdge]
      have hlen : (removeEdge adj u v).length = adj.length := List.length_set ..
      rw [edgeRel_removeEdge, hlen]
      constructor
      · rintro (⟨h1, -⟩ | ⟨h1, h2, -⟩)
        · exact h1
        · subst h1; subst h2
          exact hv
      · intro hxy
        by_cases hc : x = u ∧ y = v
        · exact Or.inr ⟨hc.1, hc.2, hulen⟩
        · exact Or.inl ⟨hxy, hc⟩
    constructor
    · exact reach_mono (fun x y hxy => (hpt x y).mpr hxy)
    · exact reach_mono (fun x y hxy => (hpt x y).mp hxy)

theorem reduceStep_eq (adj : List (List Nat)) (u v : Nat) :
    reduceStep adj u v =
      if is_reachable (removeEdge adj u v) u v then removeEdge adj u v
      else pushEdge (removeEdge adj u v) u v := rfl

theorem reduceStep_row_nodup {adj : List (List Nat)} {u v : Nat}
    (h : ∀ i, (adj.getD i []).Nodup) (i : Nat) :
    ((reduceStep adj u v).getD i []).Nodup := by
  rw [reduceStep_eq]
  by_cases hr : is_reachable (removeEdge adj u v) u v
  · rw [if_pos hr]
    unfold removeEdge
    rw [getD_set_row]
    by_cases hc : u = i ∧ u < adj.length
    · rw [if_pos hc]
      exact List.Nodup.filter _ (h u)
    · rw [if_neg hc]
      exact h i
  · rw [if_neg hr]
    unfold pushEdge
    rw [getD_set_row]
    by_cases hc : u = i ∧ u < (removeEdge adj u v).length
    · rw [if_pos hc]
      have hul : u < adj.length := by
        have h2 := hc.2
        unfold removeEdge at h2
        rwa [List.length_set] at h2
      have hrow : (removeEdge adj u v).getD u [] =
          (adj.getD u []).filter (fun x => x ≠ v) := by
        unfold removeEdge
        rw [getD_set_row, if_pos ⟨rfl, hul⟩]
      rw [hrow]
      refine List.Nodup.append (List.Nodup.filter _ (h u)) (List.nodup_singleton v) ?_
      intro x hx hxv
      rw [List.mem_singleton.mp hxv] at hx
      rw [List.mem_filter] at hx
      simp at hx
    · rw [if_neg hc]
      unfold removeEdge
      rw [getD_set_row]
      by_cases hc2 : u = i ∧ u < adj.length
      · rw [if_pos hc2]
        exact List.Nodup.filter _ (h u)
      · rw [if_neg hc2]
        exact h i

theorem reduceStep_row_sub {adj : List (List Nat)} {u v : Nat}
    {i x : Nat} (hx : x ∈ adj.getD i []) (hxv : ¬(i = u ∧ x = v)) :
    x ∈ (reduceStep adj u v).getD i [] := by
  unfold reduceStep
  by_cases hr : is_reachable (removeEdge adj u v) u v
  · rw [if_pos hr]
    exact edgeRel_removeEdge.mpr ⟨hx, hxv⟩
  · rw [if_neg hr]
    exact edgeRel_pushEdge.mpr (Or.inl (edgeRel_removeEdge.mpr ⟨hx, hxv⟩))

theorem reduce_fold_inner (adj0 : List (List Nat)) :
    ∀ (rem : List Nat) (acc : List (List Nat)) (u : Nat),
      acc.length = adj0.length →
      (∀ a b, edgeRel acc a b → edgeRel adj0 a b) →
      (∀ a b, Reach adj0 a b ↔ Reach acc a b) →
      (∀ i, (acc.getD i []).Nodup) →
      rem.Nodup → (∀ x ∈ rem, x ∈ acc.getD u []) →
      (rem.foldl (fun a2 v => reduceStep a2 u v) acc).length = adj0.length ∧
      (∀ a b, edgeRel (rem.foldl (fun a2 v => reduceStep a2 u v) acc) a b → edgeRel adj0 a b) ∧
      (∀ a b, Reach adj0 a b ↔ Reach (rem.foldl (fun a2 v => reduceStep a2 u v) acc) a b) ∧
      (∀ i, ((rem.foldl (fun a2 v => reduceStep a2 u v) acc).getD i []).Nodup) := by
  intro rem
  induction rem with
  | nil =>
    intro acc u h1 h2 h3 h4 _ _
    exact ⟨h1, h2, h3, h4⟩
  | cons v rem ih =>
    intro acc u h1 h2 h3 h4 hnd hsub
    have hv : v ∈ acc.getD u [] := hsub v (List.mem_cons_self v rem)
    rw [List.foldl_cons]
    refine ih (reduceStep acc u v) u ?_ ?_ ?_ ?_ (List.Nodup.of_cons hnd) ?_
    · rw [reduceStep_length]
      exact h1
    · intro a b hab
      exact h2 a b (reduceStep_subset hv hab)
    · intro a b
      exact (h3 a b).trans (reduceStep_reach hv a b)
    · exact reduceStep_row_nodup h4
    · intro x hx
      refine reduceStep_row_sub (hsub x (List.mem_cons_of_mem v hx)) ?_
      rintro ⟨-, h6⟩
      subst h6
      exact (List.nodup_cons.mp hnd).1 hx

theorem reduce_fold_outer (adj0 : List (List Nat)) :
    ∀ (us : List Nat) (acc : List (List Nat)),
      acc.length = adj0.length →
      (∀ a b, edgeRel acc a b → edgeRel adj0 a b) →
      (∀ a b, Reach adj0 a b ↔ Reach acc a b) →
      (∀ i, (acc.getD i []).Nodup) →
      (us.foldl (fun acc2 u => (acc2.getD u []).foldl
        (fun a2 v => reduceStep a2 u v) acc2) acc).length = adj0.length ∧
      (∀ a b, edgeRel (us.foldl (fun acc2 u => (acc2.getD u []).foldl
        (fun a2 v => reduceStep a2 u v) acc2) acc) a b → edgeRel adj0 a b) ∧
      (∀ a b, Reach adj0 a b ↔ Reach (us.foldl (fun acc2 u => (acc2.getD u []).foldl
        (fun a2 v => reduceStep a2 u v) acc2) acc) a b) ∧
      (∀ i, ((us.foldl (fun acc2 u => (acc2.getD u []).foldl
        (fun a2 v => reduceStep a2 u v) acc2) acc).getD i []).Nodup) := by
  intro us
  induction us with
  | nil =>
    intro acc h1 h2 h3 h4
    exact ⟨h1, h2, h3, h4⟩
  | cons u us ih =>
    intro acc h1 h2 h3 h4
    rw [List.foldl_cons]
    obtain ⟨g1, g2, g3, g4⟩ :=
      reduce_fold_inner adj0 (acc.getD u []) acc u h1 h2 h3 h4 (h4 u) (fun x hx => hx)
    exact ih _ g1 g2 g3 g4

/-- Structural facts about `transitive_reduction`: it keeps the vertex
count, only removes edges, preserves reachability, and keeps rows
duplicate-free. -/
theorem transitive_reduction_spec (adj0 : List (List Nat))
    (hnd : ∀ i, (adj0.getD i []).Nodup) :
    (transitive_reduction adj0).length = adj0.length ∧
    (∀ a b, edgeRel (transitive_reduction adj0) a b → edgeRel adj0 a b) ∧
    (∀ a b, Reach adj0 a b ↔ Reach (transitive_reduction adj0) a b) ∧
    (∀ i, ((transitive_reduction adj0).getD i []).Nodup) := by
  unfold transitive_reduction
  exact reduce_fold_outer adj0 (List.range adj0.length) adj0 rfl
    (fun _ _ => id) (fun _ _ => Iff.rfl) hnd

theorem hazardScan_row_nodup (passes : List Pass) (i : Nat) :
    ((hazardScan passes).getD i []).Nodup := by
  rcases Nat.lt_or_ge i passes.length with hi | hi
  · rw [hazardScan_getD_of_lt passes i hi]
    exact List.Nodup.filter _ (List.nodup_range i)
  · rw [hazardScan_getD_of_le passes i hi]
    exact List.Pairwise.nil

/-- C4: for every pass list, the graph after `transitive_reduction` has
exactly the same reachability relation as the raw pairwise hazard scan,
and its edge set is a subset of the scan's. -/
theorem c4_reduction_preserves_reachability (passes : List Pass) :
    (∀ u v, Reach (hazardScan passes) u v ↔ Reach (create_adjacency_list passes) u v) ∧
    (∀ u v, edgeRel (create_adjacency_list passes) u v → edgeRel (hazardScan passes) u v) := by
  obtain ⟨-, hsub, hreach, -⟩ :=
    transitive_reduction_spec (hazardScan passes) (hazardScan_row_nodup passes)
  exact ⟨hreach, fun u v h => hsub u v h⟩

/-- Witness for C4 on scenario B: task 0 still reaches task 2 through the
reduced graph (via task 1), and the reduced edge `2 → 1` was present in
the scan. -/
theorem c4_witness :
    Reach (hazardScan scenarioB) 2 0 ∧
    edgeRel (hazardScan scenarioB) 2 1 := by
  have e21 : edgeRel (create_adjacency_list scenarioB) 2 1 := by
    show (1 : Nat) ∈ (create_adjacency_list scenarioB).getD 2 []
    decide
  have e10 : edgeRel (create_adjacency_list scenarioB) 1 0 := by
    show (0 : Nat) ∈ (create_adjacency_list scenarioB).getD 1 []
    decide
  exact ⟨((c4_reduction_preserves_reachability scenarioB).1 2 0).mpr
      (Relation.ReflTransGen.head e21 (Relation.ReflTransGen.single e10)),
    (c4_reduction_preserves_reachability scenarioB).2 2 1 e21⟩

theorem check_dependencies_false_of_disjoint {a b : Pass}
    (h : ∀ ra ∈ a.resources, ∀ rb ∈ b.resources, same_resource ra rb = false) :
    check_dependencies a b = false := by
  unfold check_dependencies
  simp only [List.any_eq_false, Bool.not_eq_true]
  intro ra hra rb hrb
  rw [h ra hra rb hrb]
  rfl

theorem hazardScan_four_empty (t0 t1 t2 t3 : Pass)
    (h : ∀ i, i < 4 → ∀ j, j < 4 → i ≠ j →
      ∀ ra ∈ (([t0, t1, t2, t3] : List Pass).getD i default_pass).resources,
        ∀ rb ∈ (([t0, t1, t2, t3] : List Pass).getD j default_pass).resources,
          same_resource ra rb = false) :
    hazardScan [t0, t1, t2, t3] = [[], [], [], []] := by
  have hrow : ∀ i, i < 4 →
      ((List.range i).filter fun j =>
        check_dependencies (([t0, t1, t2, t3] : List Pass).getD j default_pass)
          (([t0, t1, t2, t3] : List Pass).getD i default_pass)) = [] := by
    intro i hi
    rw [List.filter_eq_nil_iff]
    intro j hj
    have hji : j < i := List.mem_range.mp hj
    rw [check_dependencies_false_of_disjoint
      (h j (lt_trans hji hi) i hi (Nat.ne_of_lt hji))]
    decide
  unfold hazardScan
  have hlen : ([t0, t1, t2, t3] : List Pass).length = 4 := rfl
  have hr : List.range 4 = [0, 1, 2, 3] := by decide
  rw [hlen, hr]
  simp only [List.map_cons, List.map_nil]
  rw [hrow 0 (by decide), hrow 1 (by decide), hrow 2 (by decide), hrow 3 (by decide)]

/-- C5 (amended: the disjointness must cover samplers as well, since
`same_resource` also compares the sampler field): four tasks none of whose
accesses name a common resource get no dependency edges — every hazard-scan
row is empty — and compile puts all four indices in one batch. -/
theorem c5_disjoint_tasks_single_batch (t0 t1 t2 t3 : Pass)
    (h : ∀ i, i < 4 → ∀ j, j < 4 → i ≠ j →
      ∀ ra ∈ (([t0, t1, t2, t3] : List Pass).getD i default_pass).resources,
        ∀ rb ∈ (([t0, t1, t2, t3] : List Pass).getD j default_pass).resources,
          same_resource ra rb = false) :
    hazardScan [t0, t1, t2, t3] = [[], [], [], []] ∧
    compileBatches [t0, t1, t2, t3] = [[0, 1, 2, 3]] := by
  have hscan := hazardScan_four_empty t0 t1 t2 t3 h
  refine ⟨hscan, ?_⟩
  unfold compileBatches create_adjacency_list
  rw [hscan]
  decide

/-- Witness for C5 on four tasks writing four distinct buffers. -/
theorem c5_witness :
    compileBatches [passBufW 1, passBufW 2, passBufW 3, passBufW 4] = [[0, 1, 2, 3]] :=
  (c5_disjoint_tasks_single_batch (passBufW 1) (passBufW 2) (passBufW 3) (passBufW 4)
    (by decide)).2

/-- Counterexample to the literal C5: the four tasks of `scenarioSampler`
are pairwise disjoint in buffers, images and image views (the only shared
resource is a sampler, which the claim's disjointness list omits), yet the
first two get a hazard edge and compile returns two batches, not one. -/
theorem c5_counterexample :
    (∀ i, i < 4 → ∀ j, j < 4 → i ≠ j →
      ∀ ra ∈ (scenarioSampler.getD i default_pass).resources,
        ∀ rb ∈ (scenarioSampler.getD j default_pass).resources,
          (ra.buffer.isSome && ra.buffer == rb.buffer) = false ∧
          (ra.image.isSome && ra.image == rb.image) = false ∧
          (ra.image_view.isSome && ra.image_view == rb.image_view) = false) ∧
    compileBatches scenarioSampler = [[0], [1, 2, 3]] ∧
    (compileBatches scenarioSampler).length ≠ 1 := by
  decide

theorem getD_set_nat {l : List Nat} {v x : Nat} (w : Nat) :
    (l.set v x).getD w 0 = if v = w ∧ v < l.length then x else l.getD w 0 := by
  rw [List.getD_eq_getElem?_getD, List.getElem?_set]
  by_cases h : v = w
  · subst h
    by_cases h2 : v < l.length
    · simp [h2]
    · rw [if_pos rfl, if_neg h2, if_neg (fun hc => h2 hc.2),
        List.getD_eq_getElem?_getD, List.getElem?_eq_none (by omega)]
  · simp only [if_neg h]
    rw [List.getD_eq_getElem?_getD]
    rw [if_neg (by tauto)]

theorem getD_replicate_zero (n w : Nat) : (List.replicate n (0 : Nat)).getD w 0 = 0 := by
  rw [List.getD_eq_getElem?_getD, List.getElem?_replicate]
  by_cases h : w < n
  · rw [if_pos h]
    rfl
  · rw [if_neg h]
    rfl

theorem mem_getD_lt {l : List (List Nat)} {i j : Nat} (h : j ∈ l.getD i []) :
    i < l.length := by
  by_contra hc
  rw [List.getD_eq_default _ _ (by omega)] at h
  exact List.not_mem_nil j h

theorem filter_length_mono (l : List Nat) (p q : Nat → Bool)
    (h : ∀ x ∈ l, p x = true → q x = true) :
    (l.filter p).length ≤ (l.filter q).length := by
  induction l with
  | nil => exact Nat.le_refl 0
  | cons a l ih =>
    have ih2 := ih fun x hx hpx => h x (List.mem_cons_of_mem a hx) hpx
    rw [List.filter_cons, List.filter_cons]
    cases hp : p a
    · simp only [Bool.false_eq_true, if_false]
      cases hq : q a
      · simp only [Bool.false_eq_true, if_false]
        exact ih2
      · simp only [if_true, List.length_cons]
        omega
    · rw [h a (List.mem_cons_self a l) hp]
      simp only [if_true, List.length_cons]
      omega

theorem countInto_mono (adj : List (List Nat)) (D E : List Nat) (v : Nat) :
    countInto adj (D ++ E) v ≤ countInto adj D v := by
  unfold countInto
  apply filter_length_mono
  intro x _ hx
  rw [Bool.and_eq_true] at hx ⊢
  obtain ⟨h1, h2⟩ := hx
  refine ⟨?_, h2⟩
  rw [decide_eq_true_eq] at h1 ⊢
  exact fun hc => h1 (List.mem_append.mpr (Or.inl hc))

theorem countInto_zero_append {adj : List (List Nat)} {D : List Nat} (E : List Nat)
    {v : Nat} (h : countInto adj D v = 0) : countInto adj (D ++ E) v = 0 :=
  Nat.le_zero.mp (h ▸ countInto_mono adj D E v)

theorem countInto_pos (adj : List (List Nat)) (D : List Nat) {u v : Nat}
    (hu : u < adj.length) (hud : u ∉ D) (hv : v ∈ adj.getD u []) :
    1 ≤ countInto adj D v := by
  unfold countInto
  have hmem : u ∈ (List.range adj.length).filter
      (fun x => decide (x ∉ D) && decide (v ∈ adj.getD x [])) := by
    rw [List.mem_filter]
    refine ⟨List.mem_range.mpr hu, ?_⟩
    rw [Bool.and_eq_true, decide_eq_true_eq, decide_eq_true_eq]
    exact ⟨hud, hv⟩
  exact List.length_pos.mpr (List.ne_nil_of_mem hmem)

theorem filter_erase_one {l : List Nat} (hl : l.Nodup) (p : Nat → Bool) (u : Nat) :
    (l.filter fun x => p x && decide (x ≠ u)).length
      = (l.filter p).length - (if u ∈ l ∧ p u = true then 1 else 0) := by
  induction l with
  | nil => simp
  | cons a l ih =>
    obtain ⟨ha, hl2⟩ := List.nodup_cons.mp hl
    have ih2 := ih hl2
    by_cases hau : a = u
    · subst hau
      have h1 : (p a && decide (a ≠ a)) = false := by simp
      rw [List.filter_cons, List.filter_cons, h1]
      simp only [Bool.false_eq_true, if_false]
      have hrest : (l.filter fun x => p x && decide (x ≠ a)) = l.filter p := by
        apply List.filter_congr
        intro x hx
        have hxa : x ≠ a := fun hc => ha (hc ▸ hx)
        simp [hxa]
      rw [hrest]
      cases hp : p a
      · rw [if_neg Bool.false_ne_true, if_neg (fun hc => Bool.false_ne_true hc.2)]
        omega
      · rw [if_pos rfl, if_pos ⟨List.mem_cons_self a l, rfl⟩, List.length_cons]
        have hnotin : ¬(a ∈ l ∧ p a = true) := fun hc => ha hc.1
        rw [if_neg hnotin] at ih2
        omega
    · rw [List.filter_cons, List.filter_cons]
      have hcond : (u ∈ a :: l ∧ p u = true) ↔ (u ∈ l ∧ p u = true) := by
        constructor
        · rintro ⟨h1, h2⟩
          rcases List.mem_cons.mp h1 with h3 | h3
          · exact absurd h3.symm hau
          · exact ⟨h3, h2⟩
        · rintro ⟨h1, h2⟩
          exact ⟨List.mem_cons_of_mem a h1, h2⟩
      have hlen1 : u ∈ l ∧ p u = true → 1 ≤ (l.filter p).length := by
        rintro ⟨h1, h2⟩
        exact List.length_pos.mpr (List.ne_nil_of_mem (List.mem_filter.mpr ⟨h1, h2⟩))
      have hne : decide (a ≠ u) = true := decide_eq_true hau
      cases hp : p a
      · simp only [Bool.false_and, Bool.false_eq_true, if_false]
        rw [ih2, if_congr hcond rfl rfl]
      · simp only [hne, Bool.and_true, if_true, List.length_cons]
        rw [ih2, if_congr hcond rfl rfl]
        by_cases hc : u ∈ l ∧ p u = true
        · have := hlen1 hc
          rw [if_pos hc]
          omega
        · rw [if_neg hc]
          omega

theorem countInto_append_one (adj : List (List Nat)) (D : List Nat) (u v : Nat) :
    countInto adj (D ++ [u]) v
      = countInto adj D v -
        (if u < adj.length ∧ u ∉ D ∧ v ∈ adj.getD u [] then 1 else 0) := by
  unfold countInto
  have hcg : ∀ x ∈ List.range adj.length,
      (decide (x ∉ D ++ [u]) && decide (v ∈ adj.getD x []))
        = ((decide (x ∉ D) && decide (v ∈ adj.getD x [])) && decide (x ≠ u)) := by
    intro x _
    by_cases h1 : x ∈ D <;> by_cases h2 : x = u <;> by_cases h3 : v ∈ adj.getD x [] <;>
      simp [h1, h2, h3, List.mem_append]
  rw [List.filter_congr hcg, filter_erase_one (List.nodup_range _) _ u]
  have hiff : (u ∈ List.range adj.length ∧
        (decide (u ∉ D) && decide (v ∈ adj.getD u [])) = true)
      ↔ (u < adj.length ∧ u ∉ D ∧ v ∈ adj.getD u []) := by
    rw [List.mem_range, Bool.and_eq_true, decide_eq_true_eq, decide_eq_true_eq]
  rw [if_congr hiff rfl rfl]

theorem relax_fold_spec :
    ∀ (r : List Nat) (ind qacc : List Nat),
      r.Nodup → (∀ v ∈ r, v < ind.length ∧ 1 ≤ ind.getD v 0) →
      (r.foldl (fun st2 v =>
          let ind2 := st2.1.set v (st2.1.getD v 0 - 1)
          if ind2.getD v 0 = 0 then (ind2, st2.2 ++ [v]) else (ind2, st2.2))
        (ind, qacc)).1.length = ind.length ∧
      (∀ w, (r.foldl (fun st2 v =>
          let ind2 := st2.1.set v (st2.1.getD v 0 - 1)
          if ind2.getD v 0 = 0 then (ind2, st2.2 ++ [v]) else (ind2, st2.2))
        (ind, qacc)).1.getD w 0
          = ind.getD w 0 - (if w ∈ r then 1 else 0)) ∧
      (r.foldl (fun st2 v =>
          let ind2 := st2.1.set v (st2.1.getD v 0 - 1)
          if ind2.getD v 0 = 0 then (ind2, st2.2 ++ [v]) else (ind2, st2.2))
        (ind, qacc)).2 = qacc ++ r.filter (fun v => decide (ind.getD v 0 = 1)) := by
  intro r
  induction r with
  | nil =>
    intro ind qacc _ _
    refine ⟨rfl, fun w => ?_, by simp⟩
    rw [List.foldl_nil, if_neg (List.not_mem_nil w)]
    show ind.getD w 0 = ind.getD w 0 - 0
    omega
  | cons v r ih =>
    intro ind qacc hnd hbound
    obtain ⟨hv1, hv2⟩ := hbound v (List.mem_cons_self v r)
    obtain ⟨hvr, hndr⟩ := List.nodup_cons.mp hnd
    have hstep : (v :: r).foldl (fun st2 v =>
          let ind2 := st2.1.set v (st2.1.getD v 0 - 1)
          if ind2.getD v 0 = 0 then (ind2, st2.2 ++ [v]) else (ind2, st2.2)) (ind, qacc)
        = r.foldl (fun st2 v =>
          let ind2 := st2.1.set v (st2.1.getD v 0 - 1)
          if ind2.getD v 0 = 0 then (ind2, st2.2 ++ [v]) else (ind2, st2.2))
          (if (ind.set v (ind.getD v 0 - 1)).getD v 0 = 0
          then (ind.set v (ind.getD v 0 - 1), qacc ++ [v])
          else (ind.set v (ind.getD v 0 - 1), qacc)) := rfl
    rw [hstep]
    have hgv : (ind.set v (ind.getD v 0 - 1)).getD v 0 = ind.getD v 0 - 1 := by
      rw [getD_set_nat, if_pos ⟨rfl, hv1⟩]
    have hbound2 : ∀ x ∈ r, x < (ind.set v (ind.getD v 0 - 1)).length ∧
        1 ≤ (ind.set v (ind.getD v 0 - 1)).getD x 0 := by
      intro x hx
      obtain ⟨hx1, hx2⟩ := hbound x (List.mem_cons_of_mem v hx)
      have hxv : v ≠ x := fun hc => hvr (hc ▸ hx)
      refine ⟨by rw [List.length_set]; exact hx1, ?_⟩
      rw [getD_set_nat, if_neg (fun hc => hxv hc.1)]
      exact hx2
    have hfc : r.filter (fun x => decide ((ind.set v (ind.getD v 0 - 1)).getD x 0 = 1))
        = r.filter (fun x => decide (ind.getD x 0 = 1)) := by
      apply List.filter_congr
      intro x hx
      have hxv : v ≠ x := fun hc => hvr (hc ▸ hx)
      rw [getD_set_nat, if_neg (fun hc => hxv hc.1)]
    have hmain : ∀ qacc2,
        (r.foldl (fun st2 v =>
          let ind2 := st2.1.set v (st2.1.getD v 0 - 1)
          if ind2.getD v 0 = 0 then (ind2, st2.2 ++ [v]) else (ind2, st2.2))
          (ind.set v (ind.getD v 0 - 1), qacc2)).1.length = ind.length ∧
        (∀ w, (r.foldl (fun st2 v =>
          let ind2 := st2.1.set v (st2.1.getD v 0 - 1)
          if ind2.getD v 0 = 0 then (ind2, st2.2 ++ [v]) else (ind2, st2.2))
          (ind.set v (ind.getD v 0 - 1), qacc2)).1.getD w 0
            = ind.getD w 0 - (if w ∈ v :: r then 1 else 0)) ∧
        (r.foldl (fun st2 v =>
          let ind2 := st2.1.set v (st2.1.getD v 0 - 1)
          if ind2.getD v 0 = 0 then (ind2, st2.2 ++ [v]) else (ind2, st2.2))
          (ind.set v (ind.getD v 0 - 1), qacc2)).2
            = qacc2 ++ r.filter (fun x => decide (ind.getD x 0 = 1)) := by
      intro qacc2
      obtain ⟨g1, g2, g3⟩ := ih (ind.set v (ind.getD v 0 - 1)) qacc2 hndr hbound2
      refine ⟨by rw [g1, List.length_set], fun w => ?_, by rw [g3, hfc]⟩
      rw [g2 w]
      by_cases hw : w = v
      · subst hw
        rw [hgv, if_neg hvr, if_pos (List.mem_cons_self w r)]
        omega
      · rw [getD_set_nat, if_neg (fun hc => hw hc.1.symm)]
        have hmc : (w ∈ v :: r) ↔ w ∈ r := by
          rw [List.mem_cons]
          exact or_iff_right hw
        rw [if_congr hmc rfl rfl]
    by_cases h1 : ind.getD v 0 = 1
    · have hz : (ind.set v (ind.getD v 0 - 1)).getD v 0 = 0 := by rw [hgv, h1]
      rw [if_pos hz]
      obtain ⟨g1, g2, g3⟩ := hmain (qacc ++ [v])
      refine ⟨g1, g2, ?_⟩
      rw [g3, List.filter_cons, if_pos (decide_eq_true h1), List.append_assoc]
      rfl
    · have hnz : ¬((ind.set v (ind.getD v 0 - 1)).getD v 0 = 0) := by
        rw [hgv]
        omega
      rw [if_neg hnz]
      obtain ⟨g1, g2, g3⟩ := hmain qacc
      refine ⟨g1, g2, ?_⟩
      rw [g3, List.filter_cons, if_neg (fun hc => h1 (of_decide_eq_true hc))]

theorem inc_fold_spec :
    ∀ (r ind : List Nat), r.Nodup → (∀ v ∈ r, v < ind.length) →
      (r.foldl (fun ind2 v => ind2.set v (ind2.getD v 0 + 1)) ind).length = ind.length ∧
      ∀ w, (r.foldl (fun ind2 v => ind2.set v (ind2.getD v 0 + 1)) ind).getD w 0
        = ind.getD w 0 + (if w ∈ r then 1 else 0) := by
  intro r
  induction r with
  | nil =>
    intro ind _ _
    refine ⟨rfl, fun w => ?_⟩
    rw [List.foldl_nil, if_neg (List.not_mem_nil w)]
    omega
  | cons v r ih =>
    intro ind hnd hb
    obtain ⟨hvr, hndr⟩ := List.nodup_cons.mp hnd
    have hv1 := hb v (List.mem_cons_self v r)
    have hstep : (v :: r).foldl (fun ind2 v => ind2.set v (ind2.getD v 0 + 1)) ind
        = r.foldl (fun ind2 v => ind2.set v (ind2.getD v 0 + 1))
            (ind.set v (ind.getD v 0 + 1)) := rfl
    rw [hstep]
    obtain ⟨g1, g2⟩ := ih (ind.set v (ind.getD v 0 + 1)) hndr
      (fun x hx => by rw [List.length_set]; exact hb x (List.mem_cons_of_mem v hx))
    refine ⟨by rw [g1, List.length_set], fun w => ?_⟩
    rw [g2 w]
    by_cases hw : w = v
    · subst hw
      rw [getD_set_nat, if_pos ⟨rfl, hv1⟩, if_neg hvr, if_pos (List.mem_cons_self w r)]
    · rw [getD_set_nat, if_neg (fun hc => hw hc.1.symm)]
      have hmc : (w ∈ v :: r) ↔ w ∈ r := by
        rw [List.mem_cons]
        exact or_iff_right hw
      rw [if_congr hmc rfl rfl]

theorem init_fold_spec (adj : List (List Nat))
    (hnd : ∀ i, (adj.getD i []).Nodup)
    (htri : ∀ i j, j ∈ adj.getD i [] → j < i) :
    ∀ (us : List Nat) (ind : List Nat), ind.length = adj.length →
      (∀ u ∈ us, u < adj.length) →
      (us.foldl (fun ind u => (adj.getD u []).foldl
        (fun ind2 v => ind2.set v (ind2.getD v 0 + 1)) ind) ind).length = adj.length ∧
      ∀ w, (us.foldl (fun ind u => (adj.getD u []).foldl
        (fun ind2 v => ind2.set v (ind2.getD v 0 + 1)) ind) ind).getD w 0
        = ind.getD w 0 + (us.filter (fun u => decide (w ∈ adj.getD u []))).length := by
  intro us
  induction us with
  | nil =>
    intro ind hlen _
    refine ⟨hlen, fun w => ?_⟩
    rw [List.foldl_nil]
    simp
  | cons u us ih =>
    intro ind hlen hus
    have hu := hus u (List.mem_cons_self u us)
    have hstep : (u :: us).foldl (fun ind u => (adj.getD u []).foldl
          (fun ind2 v => ind2.set v (ind2.getD v 0 + 1)) ind) ind
        = us.foldl (fun ind u => (adj.getD u []).foldl
          (fun ind2 v => ind2.set v (ind2.getD v 0 + 1)) ind)
          ((adj.getD u []).foldl (fun ind2 v => ind2.set v (ind2.getD v 0 + 1)) ind) := rfl
    rw [hstep]
    obtain ⟨p1, p2⟩ := inc_fold_spec (adj.getD u []) ind (hnd u)
      (fun v hv => by rw [hlen]; exact lt_trans (htri u v hv) hu)
    obtain ⟨g1, g2⟩ := ih
      ((adj.getD u []).foldl (fun ind2 v => ind2.set v (ind2.getD v 0 + 1)) ind)
      (by rw [p1, hlen]) (fun x hx => hus x (List.mem_cons_of_mem u hx))
    refine ⟨g1, fun w => ?_⟩
    rw [g2 w, p2 w, List.filter_cons]
    by_cases hwu : w ∈ adj.getD u []
    · rw [if_pos (decide_eq_true hwu), if_pos hwu, List.length_cons]
      omega
    · rw [if_neg (fun hc => hwu (of_decide_eq_true hc)), if_neg hwu]
      omega

theorem initIndeg_spec (adj : List (List Nat))
    (hnd : ∀ i, (adj.getD i []).Nodup)
    (htri : ∀ i j, j ∈ adj.getD i [] → j < i) :
    (initIndeg adj).length = adj.length ∧
    ∀ w, (initIndeg adj).getD w 0 = countInto adj [] w := by
  obtain ⟨g1, g2⟩ := init_fold_spec adj hnd htri (List.range adj.length)
    (List.replicate adj.length 0) (List.length_replicate _ _)
    (fun u hu => List.mem_range.mp hu)
  unfold initIndeg
  refine ⟨g1, fun w => ?_⟩
  rw [g2 w, getD_replicate_zero, Nat.zero_add]
  unfold countInto
  congr 1

theorem process_fold_spec (adj : List (List Nat))
    (hnd : ∀ i, (adj.getD i []).Nodup)
    (htri : ∀ i j, j ∈ adj.getD i [] → j < i) :
    ∀ (rest P done ind newq : List Nat),
      ind.length = adj.length →
      (∀ w, ind.getD w 0 = countInto adj (done ++ P) w) →
      (P ++ rest).Nodup →
      (∀ u, u ∈ P ++ rest → u < adj.length ∧ u ∉ done ∧ countInto adj done u = 0) →
      (∀ v ∈ done, countInto adj done v = 0) →
      (∀ v, v < adj.length → v ∉ done → countInto adj done v = 0 → v ∈ P ++ rest) →
      (∀ v, v ∈ newq ↔ (v < adj.length ∧ ¬(v ∈ done ∨ v ∈ P ∨ v ∈ rest) ∧
        countInto adj (done ++ P) v = 0)) →
      newq.Nodup →
      (rest.foldl (fun st u => relaxAll adj u st) (ind, newq)).1.length = adj.length ∧
      (∀ w, (rest.foldl (fun st u => relaxAll adj u st) (ind, newq)).1.getD w 0
        = countInto adj ((done ++ P) ++ rest) w) ∧
      (∀ v, v ∈ (rest.foldl (fun st u => relaxAll adj u st) (ind, newq)).2 ↔
        (v < adj.length ∧ ¬(v ∈ done ∨ v ∈ P ∨ v ∈ rest) ∧
          countInto adj ((done ++ P) ++ rest) v = 0)) ∧
      (rest.foldl (fun st u => relaxAll adj u st) (ind, newq)).2.Nodup := by
  intro rest
  induction rest with
  | nil =>
    intro P done ind newq h1 h2 h3 h4 h5 h6 h7 h8
    rw [List.foldl_nil]
    refine ⟨h1, fun w => ?_, fun v => ?_, h8⟩
    · show ind.getD w 0 = countInto adj ((done ++ P) ++ []) w
      rw [List.append_nil]
      exact h2 w
    · show v ∈ newq ↔ _
      rw [List.append_nil]
      exact h7 v
  | cons u rest ih =>
    intro P done ind newq h1 h2 h3 h4 h5 h6 h7 h8
    have hu : u < adj.length ∧ u ∉ done ∧ countInto adj done u = 0 :=
      h4 u (List.mem_append.mpr (Or.inr (List.mem_cons_self u rest)))
    obtain ⟨hPnd, hurnd, hdisjPur⟩ := List.nodup_append.mp h3
    obtain ⟨hur, hrestnd⟩ := List.nodup_cons.mp hurnd
    have huP : u ∉ P := fun hc => hdisjPur hc (List.mem_cons_self u rest)
    have huDP : u ∉ done ++ P := fun hc =>
      (List.mem_append.mp hc).elim (fun h => hu.2.1 h) huP
    have hstep : (u :: rest).foldl (fun st u => relaxAll adj u st) (ind, newq)
        = rest.foldl (fun st u => relaxAll adj u st) (relaxAll adj u (ind, newq)) := rfl
    rw [hstep]
    have hra : relaxAll adj u (ind, newq)
        = (adj.getD u []).foldl (fun st2 v =>
            let ind2 := st2.1.set v (st2.1.getD v 0 - 1)
            if ind2.getD v 0 = 0 then (ind2, st2.2 ++ [v]) else (ind2, st2.2))
          (ind, newq) := rfl
    have hb : ∀ v ∈ adj.getD u [], v < ind.length ∧ 1 ≤ ind.getD v 0 := by
      intro v hv
      have hvu : v < u := htri u v hv
      refine ⟨by rw [h1]; exact lt_trans hvu hu.1, ?_⟩
      rw [h2 v]
      exact countInto_pos adj (done ++ P) hu.1 huDP hv
    obtain ⟨r1, r2, r3⟩ := relax_fold_spec (adj.getD u []) ind newq (hnd u) hb
    have e1 : (relaxAll adj u (ind, newq)).1.length = ind.length := by
      rw [hra]; exact r1
    have e2 : ∀ w, (relaxAll adj u (ind, newq)).1.getD w 0
        = ind.getD w 0 - (if w ∈ adj.getD u [] then 1 else 0) := by
      intro w; rw [hra]; exact r2 w
    have e3 : (relaxAll adj u (ind, newq)).2
        = newq ++ (adj.getD u []).filter (fun v => decide (ind.getD v 0 = 1)) := by
      rw [hra]; exact r3
    have hcnt : ∀ w, (relaxAll adj u (ind, newq)).1.getD w 0
        = countInto adj ((done ++ P) ++ [u]) w := by
      intro w
      rw [e2 w, h2 w, countInto_append_one]
      by_cases hw : w ∈ adj.getD u []
      · rw [if_pos hw, if_pos ⟨hu.1, huDP, hw⟩]
      · rw [if_neg hw, if_neg (fun hc => hw hc.2.2)]
    have hq2 : ∀ v, v ∈ (relaxAll adj u (ind, newq)).2 ↔
        (v < adj.length ∧ ¬(v ∈ done ∨ v ∈ P ++ [u] ∨ v ∈ rest) ∧
          countInto adj ((done ++ P) ++ [u]) v = 0) := by
      intro v
      rw [e3, List.mem_append]
      constructor
      · rintro (hv | hv)
        · obtain ⟨g1, g2, g3⟩ := (h7 v).mp hv
          refine ⟨g1, ?_, countInto_zero_append [u] g3⟩
          intro hc
          apply g2
          rcases hc with hc | hc | hc
          · exact Or.inl hc
          · rcases List.mem_append.mp hc with hc2 | hc2
            · exact Or.inr (Or.inl hc2)
            · rw [List.mem_singleton] at hc2
              exact Or.inr (Or.inr (by rw [hc2]; exact List.mem_cons_self u rest))
          · exact Or.inr (Or.inr (List.mem_cons_of_mem u hc))
        · rw [List.mem_filter] at hv
          obtain ⟨hvrow, hv1⟩ := hv
          have hcnt1 : countInto adj (done ++ P) v = 1 := by
            have hd := of_decide_eq_true hv1
            rw [h2 v] at hd
            exact hd
          have hvn : v < adj.length := lt_trans (htri u v hvrow) hu.1
          have hnin : ¬(v ∈ done ∨ v ∈ P ++ [u] ∨ v ∈ rest) := by
            rintro (hc | hc | hc)
            · have hz := countInto_zero_append P (h5 v hc)
              omega
            · rcases List.mem_append.mp hc with hc2 | hc2
              · have h0 : countInto adj done v = 0 :=
                  (h4 v (List.mem_append.mpr (Or.inl hc2))).2.2
                have hz := countInto_zero_append P h0
                omega
              · rw [List.mem_singleton] at hc2
                subst hc2
                have hz := countInto_zero_append P hu.2.2
                omega
            · have h0 : countInto adj done v = 0 :=
                (h4 v (List.mem_append.mpr (Or.inr (List.mem_cons_of_mem u hc)))).2.2
              have hz := countInto_zero_append P h0
              omega
          refine ⟨hvn, hnin, ?_⟩
          rw [countInto_append_one, hcnt1, if_pos ⟨hu.1, huDP, hvrow⟩]
      · rintro ⟨g1, g2, g3⟩
        rw [countInto_append_one] at g3
        by_cases hc0 : countInto adj (done ++ P) v = 0
        · left
          rw [h7 v]
          refine ⟨g1, ?_, hc0⟩
          intro hc
          apply g2
          rcases hc with hc | hc | hc
          · exact Or.inl hc
          · exact Or.inr (Or.inl (List.mem_append.mpr (Or.inl hc)))
          · rcases List.mem_cons.mp hc with hc2 | hc2
            · exact Or.inr (Or.inl (List.mem_append.mpr (Or.inr
                (by rw [hc2]; exact List.mem_singleton_self u))))
            · exact Or.inr (Or.inr hc2)
        · right
          by_cases hcond : u < adj.length ∧ u ∉ done ++ P ∧ v ∈ adj.getD u []
          · rw [if_pos hcond] at g3
            have hcnt1 : countInto adj (done ++ P) v = 1 := by omega
            rw [List.mem_filter]
            refine ⟨hcond.2.2, ?_⟩
            apply decide_eq_true
            rw [h2 v]
            exact hcnt1
          · rw [if_neg hcond] at g3
            exact absurd (by omega : countInto adj (done ++ P) v = 0) hc0
    have hq2nd : (relaxAll adj u (ind, newq)).2.Nodup := by
      rw [e3]
      refine List.Nodup.append h8 (List.Nodup.filter _ (hnd u)) ?_
      intro v hv1 hv2
      rw [List.mem_filter] at hv2
      have hcnt1 : countInto adj (done ++ P) v = 1 := by
        have hd := of_decide_eq_true hv2.2
        rw [h2 v] at hd
        exact hd
      have hz := ((h7 v).mp hv1).2.2
      omega
    have I1 : (relaxAll adj u (ind, newq)).1.length = adj.length := by rw [e1, h1]
    have I2 : ∀ w, (relaxAll adj u (ind, newq)).1.getD w 0
        = countInto adj (done ++ (P ++ [u])) w := by
      intro w
      rw [← List.append_assoc]
      exact hcnt w
    have I3 : ((P ++ [u]) ++ rest).Nodup := by
      rw [List.append_assoc]
      exact h3
    have I4 : ∀ x, x ∈ (P ++ [u]) ++ rest →
        x < adj.length ∧ x ∉ done ∧ countInto adj done x = 0 := by
      intro x hx
      apply h4
      rcases List.mem_append.mp hx with hx2 | hx2
      · rcases List.mem_append.mp hx2 with hx3 | hx3
        · exact List.mem_append.mpr (Or.inl hx3)
        · rw [List.mem_singleton] at hx3
          exact List.mem_append.mpr (Or.inr (by rw [hx3]; exact List.mem_cons_self u rest))
      · exact List.mem_append.mpr (Or.inr (List.mem_cons_of_mem u hx2))
    have I6 : ∀ v, v < adj.length → v ∉ done → countInto adj done v = 0 →
        v ∈ (P ++ [u]) ++ rest := by
      intro v a b c
      have hm := h6 v a b c
      rcases List.mem_append.mp hm with hmm | hmm
      · exact List.mem_append.mpr (Or.inl (List.mem_append.mpr (Or.inl hmm)))
      · rcases List.mem_cons.mp hmm with hmm2 | hmm2
        · exact List.mem_append.mpr (Or.inl (List.mem_append.mpr (Or.inr
            (by rw [hmm2]; exact List.mem_singleton_self u))))
        · exact List.mem_append.mpr (Or.inr hmm2)
    have I7 : ∀ v, v ∈ (relaxAll adj u (ind, newq)).2 ↔
        (v < adj.length ∧ ¬(v ∈ done ∨ v ∈ P ++ [u] ∨ v ∈ rest) ∧
          countInto adj (done ++ (P ++ [u])) v = 0) := by
      intro v
      rw [← List.append_assoc]
      exact hq2 v
    obtain ⟨G1, G2, G3, G4⟩ := ih (P ++ [u]) done (relaxAll adj u (ind, newq)).1
      (relaxAll adj u (ind, newq)).2 I1 I2 I3 I4 h5 I6 I7 hq2nd
    have hl : (done ++ (P ++ [u])) ++ rest = (done ++ P) ++ (u :: rest) := by
      simp [List.append_assoc]
    have hms : ∀ v : Nat, (v ∈ done ∨ v ∈ P ++ [u] ∨ v ∈ rest)
        ↔ (v ∈ done ∨ v ∈ P ∨ v ∈ u :: rest) := by
      intro v
      rw [List.mem_append, List.mem_singleton, List.mem_cons]
      tauto
    refine ⟨G1, fun w => ?_, fun v => ?_, G4⟩
    · rw [← hl]
      exact G2 w
    · constructor
      · intro hv
        obtain ⟨a, b, c⟩ := (G3 v).mp hv
        refine ⟨a, fun hc => b ((hms v).mpr hc), ?_⟩
        rw [← hl]
        exact c
      · rintro ⟨a, b, c⟩
        refine (G3 v).mpr ⟨a, fun hc => b ((hms v).mp hc), ?_⟩
        rw [hl]
        exact c

theorem batchPos_cons (q : List Nat) (K : List (List Nat)) (v : Nat) :
    batchPos (q :: K) v = if v ∈ q then 0 else batchPos K v + 1 := by
  unfold batchPos
  by_cases h : v ∈ q <;> simp [List.findIdx_cons, h]

theorem exists_max_not_done (done : List Nat) (n : Nat) :
    ∀ v, v < n → v ∉ done →
    ∃ m, m ∉ done ∧ m < n ∧ ∀ x, m < x → x < n → x ∈ done := by
  induction n with
  | zero =>
    intro v hv _
    exact absurd hv (by omega)
  | succ n ihn =>
    intro v hv hvd
    by_cases hn : n ∈ done
    · rcases Nat.lt_succ_iff_lt_or_eq.mp hv with h | h
      · obtain ⟨m, a, b, c⟩ := ihn v h hvd
        refine ⟨m, a, Nat.lt_succ_of_lt b, ?_⟩
        intro x hx1 hx2
        rcases Nat.lt_succ_iff_lt_or_eq.mp hx2 with h2 | h2
        · exact c x hx1 h2
        · rw [h2]
          exact hn
      · rw [h] at hvd
        exact absurd hn hvd
    · exact ⟨n, hn, Nat.lt_succ_self n, fun x hx1 hx2 => absurd hx2 (by omega)⟩

theorem kahn_loop_spec (adj : List (List Nat))
    (hnd : ∀ i, (adj.getD i []).Nodup)
    (htri : ∀ i j, j ∈ adj.getD i [] → j < i) :
    ∀ (fuel : Nat) (done ind q : List Nat),
      done.Nodup →
      (∀ v ∈ done, v < adj.length) →
      (∀ v ∈ done, countInto adj done v = 0) →
      q.Nodup →
      (∀ v, v ∈ q ↔ (v < adj.length ∧ v ∉ done ∧ countInto adj done v = 0)) →
      ind.length = adj.length →
      (∀ w, ind.getD w 0 = countInto adj done w) →
      adj.length + 1 ≤ fuel + done.length →
      (done ++ (kahnLoop adj fuel ind q).flatten).Perm (List.range adj.length) ∧
      (∀ i j, j ∈ adj.getD i [] → i ∉ done →
        j ∉ done ∧ j ∈ (kahnLoop adj fuel ind q).flatten ∧
        batchPos (kahnLoop adj fuel ind q) i < batchPos (kahnLoop adj fuel ind q) j) := by
  intro fuel
  induction fuel with
  | zero =>
    intro done ind q hd hdl hd0 hq hqc hil hiw hfuel
    have hle : done.length ≤ adj.length := by
      have hsp : List.Subperm done (List.range adj.length) :=
        List.subperm_of_subset hd (fun v hv => List.mem_range.mpr (hdl v hv))
      have hlen := List.Subperm.length_le hsp
      rwa [List.length_range] at hlen
    exact absurd hfuel (by omega)
  | succ fuel ih =>
    intro done ind q hd hdl hd0 hq hqc hil hiw hfuel
    have hkstep : kahnLoop adj (fuel + 1) ind q
        = if q.isEmpty then []
          else q :: kahnLoop adj fuel (processBatch adj q ind).1 (processBatch adj q ind).2 := rfl
    by_cases hqe : q.isEmpty
    · rw [hkstep, if_pos hqe]
      have hqnil : q = [] := List.isEmpty_iff.mp hqe
      have hall : ∀ v, v < adj.length → v ∈ done := by
        intro v hv
        by_contra hvd
        obtain ⟨m, hmd, hmn, hmax⟩ := exists_max_not_done done adj.length v hv hvd
        have hcg : countInto adj done m = 0 := by
          unfold countInto
          rw [List.length_eq_zero, List.filter_eq_nil_iff]
          intro x hx hcx
          rw [Bool.and_eq_true, decide_eq_true_eq, decide_eq_true_eq] at hcx
          obtain ⟨hx1, hx2⟩ := hcx
          have hgx := htri x m hx2
          have hxn : x < adj.length := List.mem_range.mp hx
          exact hx1 (hmax x hgx hxn)
        have hgq : m ∈ q := (hqc m).mpr ⟨hmn, hmd, hcg⟩
        rw [hqnil] at hgq
        exact List.not_mem_nil m hgq
      refine ⟨?_, ?_⟩
      · show (done ++ ([] : List (List Nat)).flatten).Perm (List.range adj.length)
        rw [List.flatten_nil, List.append_nil]
        refine (List.perm_ext_iff_of_nodup hd (List.nodup_range _)).mpr ?_
        intro a
        rw [List.mem_range]
        exact ⟨fun h => hdl a h, fun h => hall a h⟩
      · intro i j hij hid
        exact absurd (hall i (mem_getD_lt hij)) hid
    · rw [hkstep, if_neg hqe]
      have hqne : q ≠ [] := fun hc => hqe (by rw [hc]; rfl)
      obtain ⟨R1, R2, R3, R4⟩ := process_fold_spec adj hnd htri q [] done ind []
        hil
        (fun w => by rw [List.append_nil]; exact hiw w)
        hq
        (fun u hu2 => (hqc u).mp hu2)
        hd0
        (fun v a b c => (hqc v).mpr ⟨a, b, c⟩)
        (by
          intro v
          constructor
          · intro h
            exact absurd h (List.not_mem_nil v)
          · rintro ⟨a, b, c⟩
            rw [List.append_nil] at c
            exact absurd ((hqc v).mpr ⟨a, fun hh => b (Or.inl hh), c⟩)
              (fun hh => b (Or.inr (Or.inr hh))))
        List.nodup_nil
      have J5 : ∀ v, v ∈ (processBatch adj q ind).2 ↔
          (v < adj.length ∧ v ∉ done ++ q ∧ countInto adj (done ++ q) v = 0) := by
        intro v
        have hr := R3 v
        rw [List.append_nil] at hr
        constructor
        · intro h
          obtain ⟨a, b, c⟩ := hr.mp h
          refine ⟨a, ?_, c⟩
          intro hc
          rcases List.mem_append.mp hc with hc2 | hc2
          · exact b (Or.inl hc2)
          · exact b (Or.inr (Or.inr hc2))
        · rintro ⟨a, b, c⟩
          refine hr.mpr ⟨a, ?_, c⟩
          rintro (hc | hc | hc)
          · exact b (List.mem_append.mpr (Or.inl hc))
          · exact List.not_mem_nil v hc
          · exact b (List.mem_append.mpr (Or.inr hc))
      have J7 : ∀ w, (processBatch adj q ind).1.getD w 0 = countInto adj (done ++ q) w := by
        intro w
        have hr := R2 w
        rw [List.append_nil] at hr
        exact hr
      have hdisj : List.Disjoint done q := by
        intro a ha haq
        exact ((hqc a).mp haq).2.1 ha
      have J1 : (done ++ q).Nodup := List.Nodup.append hd hq hdisj
      have J2 : ∀ v ∈ done ++ q, v < adj.length := by
        intro v hv
        rcases List.mem_append.mp hv with h | h
        · exact hdl v h
        · exact ((hqc v).mp h).1
      have J3 : ∀ v ∈ done ++ q, countInto adj (done ++ q) v = 0 := by
        intro v hv
        rcases List.mem_append.mp hv with h | h
        · exact countInto_zero_append q (hd0 v h)
        · exact countInto_zero_append q ((hqc v).mp h).2.2
      have hql : 1 ≤ q.length := List.length_pos.mpr hqne
      have J8 : adj.length + 1 ≤ fuel + (done ++ q).length := by
        rw [List.length_append]
        omega
      obtain ⟨K1, K2⟩ := ih (done ++ q) (processBatch adj q ind).1 (processBatch adj q ind).2
        J1 J2 J3 R4 J5 R1 J7 J8
      refine ⟨?_, ?_⟩
      · rw [List.flatten_cons, ← List.append_assoc]
        exact K1
      · intro i j hij hid
        have hin : i < adj.length := mem_getD_lt hij
        have hji : j < i := htri i j hij
        have hcntj : 1 ≤ countInto adj done j := countInto_pos adj done hin hid hij
        have hjd : j ∉ done := fun hc => by have := hd0 j hc; omega
        have hjq : j ∉ q := fun hc => by have := ((hqc j).mp hc).2.2; omega
        have hjn : j < adj.length := lt_trans hji hin
        by_cases hiq : i ∈ q
        · have hjdq : j ∉ done ++ q := fun hc => (List.mem_append.mp hc).elim hjd hjq
          have hjK : j ∈ (kahnLoop adj fuel (processBatch adj q ind).1
              (processBatch adj q ind).2).flatten := by
            have hm : j ∈ (done ++ q) ++ (kahnLoop adj fuel (processBatch adj q ind).1
                (processBatch adj q ind).2).flatten :=
              K1.mem_iff.mpr (List.mem_range.mpr hjn)
            rcases List.mem_append.mp hm with hc | hc
            · exact absurd hc hjdq
            · exact hc
          refine ⟨hjd, ?_, ?_⟩
          · rw [List.flatten_cons]
            exact List.mem_append.mpr (Or.inr hjK)
          · rw [batchPos_cons, batchPos_cons, if_pos hiq, if_neg hjq]
            omega
        · have hidq : i ∉ done ++ q := fun hc => (List.mem_append.mp hc).elim hid hiq
          obtain ⟨hjd2, hjK, hpos⟩ := K2 i j hij hidq
          refine ⟨hjd, ?_, ?_⟩
          · rw [List.flatten_cons]
            exact List.mem_append.mpr (Or.inr hjK)
          · rw [batchPos_cons, batchPos_cons, if_neg hiq, if_neg hjq]
            omega

theorem flatten_reverse_perm : ∀ (K : List (List Nat)),
    K.reverse.flatten.Perm K.flatten := by
  intro K
  induction K with
  | nil => exact List.Perm.refl _
  | cons a K ih =>
    rw [List.reverse_cons, List.flatten_append, List.flatten_cons, List.flatten_cons,
      List.flatten_nil, List.append_nil]
    exact List.perm_append_comm.trans (List.Perm.append_left a ih)

theorem getD_eq_getElem_rows (K : List (List Nat)) (m : Nat) (hm : m < K.length) :
    K.getD m [] = K[m] := by
  rw [List.getD_eq_getElem?_getD, List.getElem?_eq_getElem hm]
  rfl

theorem batchPos_eq_of_unique (K : List (List Nat)) (v k : Nat) (hk : k < K.length)
    (hin : v ∈ K.getD k []) (huniq : ∀ m, m < K.length → v ∈ K.getD m [] → m = k) :
    batchPos K v = k := by
  unfold batchPos
  rw [List.findIdx_eq hk]
  constructor
  · rw [← getD_eq_getElem_rows K k hk]
    exact decide_eq_true hin
  · intro j hj
    have hjlen : j < K.length := Nat.lt_trans hj hk
    apply decide_eq_false
    intro hmem
    rw [← getD_eq_getElem_rows K j hjlen] at hmem
    have := huniq j hjlen hmem
    omega

theorem flatten_mem_unique (K : List (List Nat)) (hndf : K.flatten.Nodup) {v : Nat}
    (hv : v ∈ K.flatten) :
    ∃ k, k < K.length ∧ v ∈ K.getD k [] ∧
      ∀ m, m < K.length → v ∈ K.getD m [] → m = k := by
  obtain ⟨b, hbK, hvb⟩ := List.mem_flatten.mp hv
  obtain ⟨k, hk, hbk⟩ := List.getElem_of_mem hbK
  have hpd : K.Pairwise List.Disjoint := (List.nodup_flatten.mp hndf).2
  have hpd2 := List.pairwise_iff_getElem.mp hpd
  refine ⟨k, hk, ?_, ?_⟩
  · rw [getD_eq_getElem_rows K k hk, hbk]
    exact hvb
  · intro m hm hvm
    rw [getD_eq_getElem_rows K m hm] at hvm
    by_contra hne
    rcases Nat.lt_or_ge m k with hlt | hge
    · exact hpd2 m k hm hk hlt hvm (by rw [hbk]; exact hvb)
    · have hlt2 : k < m := by omega
      exact hpd2 k m hk hm hlt2 (by rw [hbk]; exact hvb) hvm

theorem batchPos_reverse_eq (K : List (List Nat)) (hndf : K.flatten.Nodup) {v : Nat}
    (hv : v ∈ K.flatten) :
    batchPos K v < K.length ∧
    batchPos K.reverse v = K.length - 1 - batchPos K v := by
  obtain ⟨k, hk, hin, huniq⟩ := flatten_mem_unique K hndf hv
  have h1 : batchPos K v = k := batchPos_eq_of_unique K v k hk hin huniq
  have hrl : K.reverse.length = K.length := List.length_reverse K
  have hk2 : K.length - 1 - k < K.reverse.length := by omega
  have hrev_row : ∀ m, m < K.length →
      K.reverse.getD m [] = K.getD (K.length - 1 - m) [] := by
    intro m hm
    have hm2 : m < K.reverse.length := by omega
    have hm3 : K.length - 1 - m < K.length := by omega
    rw [getD_eq_getElem_rows K.reverse m hm2, getD_eq_getElem_rows K _ hm3]
    exact List.getElem_reverse hm2
  have hinr : v ∈ K.reverse.getD (K.length - 1 - k) [] := by
    rw [hrev_row _ (by omega)]
    have he : K.length - 1 - (K.length - 1 - k) = k := by omega
    rw [he]
    exact hin
  have huniqr : ∀ m, m < K.reverse.length →
      v ∈ K.reverse.getD m [] → m = K.length - 1 - k := by
    intro m hm hvm
    have hm2 : m < K.length := by omega
    rw [hrev_row m hm2] at hvm
    have := huniq (K.length - 1 - m) (by omega) hvm
    omega
  refine ⟨by omega, ?_⟩
  rw [h1]
  exact batchPos_eq_of_unique K.reverse v (K.length - 1 - k) hk2 hinr huniqr

theorem countP_le_count_flatten (v : Nat) : ∀ (K : List (List Nat)),
    K.countP (fun b => decide (v ∈ b)) ≤ K.flatten.count v := by
  intro K
  induction K with
  | nil => simp
  | cons b K ih =>
    rw [List.countP_cons, List.flatten_cons, List.count_append]
    by_cases hb : v ∈ b
    · have h1 : 1 ≤ b.count v := List.one_le_count_iff.mpr hb
      rw [if_pos (decide_eq_true hb)]
      omega
    · rw [if_neg (fun hc => hb (of_decide_eq_true hc))]
      omega

theorem countP_batches_eq_one {K : List (List Nat)} {v : Nat}
    (h1 : K.flatten.count v = 1) : K.countP (fun b => decide (v ∈ b)) = 1 := by
  have hle := countP_le_count_flatten v K
  have hv : v ∈ K.flatten := List.count_pos_iff.mp (by omega)
  obtain ⟨b, hbK, hvb⟩ := List.mem_flatten.mp hv
  have hge : 0 < K.countP (fun b => decide (v ∈ b)) :=
    List.countP_pos_iff.mpr ⟨b, hbK, decide_eq_true hvb⟩
  omega

theorem hazardScan_length (passes : List Pass) :
    (hazardScan passes).length = passes.length := by
  unfold hazardScan
  rw [List.length_map, List.length_range]

theorem hazardScan_tri (passes : List Pass) :
    ∀ i j, j ∈ (hazardScan passes).getD i [] → j < i := by
  intro i j h
  have hi : i < (hazardScan passes).length := mem_getD_lt h
  rw [hazardScan_length] at hi
  rw [hazardScan_getD_of_lt passes i hi] at h
  exact List.mem_range.mp (List.mem_of_mem_filter h)

theorem cal_length (passes : List Pass) :
    (create_adjacency_list passes).length = passes.length := by
  unfold create_adjacency_list
  rw [(transitive_reduction_spec (hazardScan passes) (hazardScan_row_nodup passes)).1,
    hazardScan_length]

theorem cal_tri (passes : List Pass) :
    ∀ i j, j ∈ (create_adjacency_list passes).getD i [] → j < i := by
  intro i j h
  have hsub := (transitive_reduction_spec (hazardScan passes)
    (hazardScan_row_nodup passes)).2.1 i j h
  exact hazardScan_tri passes i j hsub

theorem cal_nodup (passes : List Pass) :
    ∀ i, ((create_adjacency_list passes).getD i []).Nodup :=
  (transitive_reduction_spec (hazardScan passes) (hazardScan_row_nodup passes)).2.2.2

theorem kahn_batches_spec (adj : List (List Nat))
    (hnd : ∀ i, (adj.getD i []).Nodup)
    (htri : ∀ i j, j ∈ adj.getD i [] → j < i) :
    ((toplogical_sort adj).flatten).Perm (List.range adj.length) ∧
    ((toplogical_sort adj).flatten).Nodup ∧
    (∀ i j, j ∈ adj.getD i [] →
      batchPos (toplogical_sort adj) j < batchPos (toplogical_sort adj) i) := by
  obtain ⟨i1, i2⟩ := initIndeg_spec adj hnd htri
  have hq0nd : ((List.range adj.length).filter
      (fun i => decide ((initIndeg adj).getD i 0 = 0))).Nodup :=
    List.Nodup.filter _ (List.nodup_range _)
  have hq0c : ∀ v, v ∈ (List.range adj.length).filter
      (fun i => decide ((initIndeg adj).getD i 0 = 0)) ↔
      (v < adj.length ∧ v ∉ ([] : List Nat) ∧ countInto adj [] v = 0) := by
    intro v
    rw [List.mem_filter, List.mem_range, decide_eq_true_eq, i2 v]
    constructor
    · rintro ⟨a, b⟩
      exact ⟨a, List.not_mem_nil v, b⟩
    · rintro ⟨a, _, b⟩
      exact ⟨a, b⟩
  obtain ⟨P1, P2⟩ := kahn_loop_spec adj hnd htri (adj.length + 1) []
    (initIndeg adj)
    ((List.range adj.length).filter (fun i => decide ((initIndeg adj).getD i 0 = 0)))
    List.nodup_nil
    (fun v hv => absurd hv (List.not_mem_nil v))
    (fun v hv => absurd hv (List.not_mem_nil v))
    hq0nd hq0c i1 (fun w => i2 w) (by omega)
  rw [List.nil_append] at P1
  have hKrev : toplogical_sort adj
      = (kahnLoop adj (adj.length + 1) (initIndeg adj)
          ((List.range adj.length).filter
            (fun i => decide ((initIndeg adj).getD i 0 = 0)))).reverse := rfl
  have hfnd : (kahnLoop adj (adj.length + 1) (initIndeg adj)
      ((List.range adj.length).filter
        (fun i => decide ((initIndeg adj).getD i 0 = 0)))).flatten.Nodup :=
    P1.nodup_iff.mpr (List.nodup_range _)
  have hPerm : ((toplogical_sort adj).flatten).Perm (List.range adj.length) := by
    rw [hKrev]
    exact (flatten_reverse_perm _).trans P1
  refine ⟨hPerm, hPerm.nodup_iff.mpr (List.nodup_range _), ?_⟩
  intro i j hij
  obtain ⟨-, hjK, hpos⟩ := P2 i j hij (List.not_mem_nil i)
  have hiK : i ∈ (kahnLoop adj (adj.length + 1) (initIndeg adj)
      ((List.range adj.length).filter
        (fun i => decide ((initIndeg adj).getD i 0 = 0)))).flatten :=
    P1.mem_iff.mpr (List.mem_range.mpr (mem_getD_lt hij))
  obtain ⟨hposi, hrevi⟩ := batchPos_reverse_eq _ hfnd hiK
  obtain ⟨hposj, hrevj⟩ := batchPos_reverse_eq _ hfnd hjK
  rw [hKrev, hrevi, hrevj]
  omega

/-- C2: for every task list, the batches of the topological leveling are a
partition of the task indices respecting the reduced dependency edges: the
batch of a task is strictly later than the batch of each of its stored
predecessors, the concatenation of all batches is a permutation of
`0..n-1`, and each task index lies in exactly one batch. -/
theorem c2_topological_batches (passes : List Pass) :
    (∀ i j, edgeRel (create_adjacency_list passes) i j →
      batchPos (compileBatches passes) j < batchPos (compileBatches passes) i) ∧
    ((compileBatches passes).flatten).Perm (List.range passes.length) ∧
    (∀ v, v < passes.length →
      (compileBatches passes).countP (fun b => decide (v ∈ b)) = 1) := by
  obtain ⟨hperm, hndf, hord⟩ := kahn_batches_spec (create_adjacency_list passes)
    (cal_nodup passes) (cal_tri passes)
  have hlen := cal_length passes
  have hperm2 : ((compileBatches passes).flatten).Perm (List.range passes.length) := by
    unfold compileBatches
    rw [← hlen]
    exact hperm
  refine ⟨fun i j h => hord i j h, hperm2, ?_⟩
  intro v hv
  apply countP_batches_eq_one
  rw [List.Perm.count_eq hperm2]
  exact List.count_eq_one_of_mem (List.nodup_range _) (List.mem_range.mpr hv)

/-- Witness for C2 on scenario A: the writer's batch precedes the readers'
batch and the three task indices are exactly covered. -/
theorem c2_witness :
    batchPos (compileBatches scenarioA) 0 < batchPos (compileBatches scenarioA) 1 ∧
    ((compileBatches scenarioA).flatten).Perm (List.range 3) := by
  have h := c2_topological_batches scenarioA
  refine ⟨h.1 1 0 ?_, h.2.1⟩
  show (0 : Nat) ∈ (create_adjacency_list scenarioA).getD 1 []
  decide

end TaskGraph

end Vulcany
